import Mathlib

/-!
Verification of the HVDC warehouse analyzer (`analyzer/calculator.py`,
`analyzer/normalizer.py`).

The engine works on per-case rows holding optional timestamps per location
column.  Timestamps are modelled as a month string (`pandas.Period('M')`,
e.g. "2025-01") together with a position inside the month; chronological
order is the lexicographic order on (month, position), and Python's string
comparison on month strings is modelled by code-point lexicographic order
on the character lists.  Quantities are integers.  Pandas stable aspects
(Python `list.sort` is stable) are modelled by a stable insertion sort;
where pandas itself leaves tie order implementation-defined
(`DataFrame.sort_values`) the model fixes the stable order, and no theorem
below depends on those ties.
-/

namespace HVDC

/-- Python code-point lexicographic `<=` on strings, as lists of chars. -/
def lexLeB : List Char → List Char → Bool
  | [], _ => true
  | _ :: _, [] => false
  | c :: cs, d :: ds => if c < d then true else if c = d then lexLeB cs ds else false

/-- Python string `<=` (used by the code to compare "YYYY-MM" month strings). -/
def strLeB (a b : String) : Bool := lexLeB a.toList b.toList

/-- A timestamp: its reporting month (`str(date.to_period('M'))`) and a
position within the month.  Chronological order is lexicographic. -/
structure Date where
  month : String
  sub : Nat
deriving DecidableEq

/-- Chronological `<=` on timestamps. -/
def dateLeB (a b : Date) : Bool :=
  if a.month = b.month then decide (a.sub ≤ b.sub) else strLeB a.month b.month

/-- The raw kind a location column contributes in `_track_case_events`:
warehouse columns yield `'warehouse_in'`, site columns `'site_out'`. -/
inductive RawKind where
  | warehouse_in
  | site_out
deriving DecidableEq

/-- `last_type.split('_')[0]` of `_track_case_events` line 100. -/
def RawKind.kindHead : RawKind → String
  | .warehouse_in => "warehouse"
  | .site_out => "site"

/-- One entry of the per-case `events` list of `_track_case_events`:
`(row[col], col, kind)`. -/
structure RawEvent where
  date : Date
  loc : String
  kind : RawKind
deriving DecidableEq

/-- One normalized movement row: `case_no`, `quantity`, and the optional
timestamp stored under each location column (`NaT` = `none`). -/
structure CaseRow where
  case_no : String
  quantity : Int
  dates : String → Option Date

/-- One record appended to `event_map` by `_track_case_events`:
`{'case', 'type', 'loc', 'month'}` with `type` one of
`'입고'`, `'출고'`, `'site_in'`. -/
structure Emit where
  case_no : String
  etype : String
  loc : String
  month : String
deriving DecidableEq

/-- One record appended to `case_status`:
`{'case', 'loc', 'type', 'month'}` with `type` `'warehouse'`/`'site'`. -/
structure CaseStatus where
  case_no : String
  loc : String
  stype : String
  month : String
deriving DecidableEq

/-- The running `prev_type` of the tracking loop (`'warehouse'`/`'site'`). -/
inductive PrevKind where
  | warehouse
  | site
deriving DecidableEq

/-- Python truthiness of the optional `prev_loc` string (`None` and `''`
are falsy), as used by `if prev_type == 'warehouse' and prev_loc:`. -/
def truthy : Option String → Bool
  | none => false
  | some s => !(s == "")

/-- Stable insertion placing `x` before the first element it compares `<=`
to; on ties the earlier element stays first, as in Python's stable sort. -/
def insertBy (le : α → α → Bool) (x : α) : List α → List α
  | [] => [x]
  | y :: ys => if le x y then x :: y :: ys else y :: insertBy le x ys

/-- Stable sort (Python `list.sort` and `sorted` are stable). -/
def sortBy (le : α → α → Bool) : List α → List α
  | [] => []
  | x :: xs => insertBy le x (sortBy le xs)

/-- `events` collection of `_track_case_events` lines 79-82: warehouse
columns in configured order, then site columns, keeping non-null dates. -/
def collectEvents (wcols scols : List String) (r : CaseRow) : List RawEvent :=
  (wcols.filterMap fun w => (r.dates w).map fun d => RawEvent.mk d w .warehouse_in) ++
  (scols.filterMap fun s => (r.dates s).map fun d => RawEvent.mk d s .site_out)

/-- `events.sort(key=lambda x: x[0])` (line 85): stable sort by timestamp. -/
def sortEvents : List RawEvent → List RawEvent :=
  sortBy fun a b => dateLeB a.date b.date

/-- The ordered raw movement sequence of one case (lines 79-85). -/
def caseEvents (wcols scols : List String) (r : CaseRow) : List RawEvent :=
  sortEvents (collectEvents wcols scols r)

/-- The event-emission loop of `_track_case_events` lines 87-97, walking
the sorted events with state `(prev_loc, prev_type)`. -/
def trackEvents (c : String) : List RawEvent → Option String → Option PrevKind → List Emit
  | [], _, _ => []
  | e :: rest, prevLoc, prevType =>
    match e.kind with
    | .warehouse_in =>
        Emit.mk c "입고" e.loc e.date.month ::
          trackEvents c rest (some e.loc) (some .warehouse)
    | .site_out =>
        (if (prevType == some PrevKind.warehouse) && truthy prevLoc then
          [Emit.mk c "출고" (prevLoc.getD "") e.date.month] else []) ++
        Emit.mk c "site_in" e.loc e.date.month ::
          trackEvents c rest (some e.loc) (some .site)

/-- The events `_track_case_events` emits for one row. -/
def caseEmits (wcols scols : List String) (r : CaseRow) : List Emit :=
  trackEvents r.case_no (caseEvents wcols scols r) none none

/-- The terminal state appended for one row (lines 99-100); `none` when the
row has no timestamped location (`if not events: continue`, line 84). -/
def caseStatus (wcols scols : List String) (r : CaseRow) : Option CaseStatus :=
  match (caseEvents wcols scols r).getLast? with
  | none => none
  | some e => some (CaseStatus.mk r.case_no e.loc e.kind.kindHead e.date.month)

/-- `_track_case_events` over a whole supplier table: the `case_status`
and `event_map` lists. -/
def trackCaseEvents (wcols scols : List String) (tbl : List CaseRow) :
    List CaseStatus × List Emit :=
  (tbl.filterMap (caseStatus wcols scols), tbl.flatMap (caseEmits wcols scols))

/-- `sum(1 for e in event_map if e['type'] == '입고' and e['loc'] == w and
e['month'] == m)` (`_aggregate_warehouse_data` line 110). -/
def inboundCount (ems : List Emit) (w m : String) : Nat :=
  ems.countP fun e => e.etype == "입고" && e.loc == w && e.month == m

/-- Outbound count per warehouse and month (line 111). -/
def outboundCount (ems : List Emit) (w m : String) : Nat :=
  ems.countP fun e => e.etype == "출고" && e.loc == w && e.month == m

/-- Site inbound count per site and month (`_aggregate_site_data` line 125). -/
def siteInCount (ems : List Emit) (s m : String) : Nat :=
  ems.countP fun e => e.etype == "site_in" && e.loc == s && e.month == m

/-- `sum(1 for s in case_status if s['loc'] == w and s['type'] ==
'warehouse' and s['month'] <= m)` (line 112): point-in-time stock. -/
def stockCount (sts : List CaseStatus) (w m : String) : Nat :=
  sts.countP fun st => st.loc == w && st.stype == "warehouse" && strLeB st.month m

/-- Cumulative site inbound (line 126): terminal states at a site up to `m`. -/
def cumSiteCount (sts : List CaseStatus) (s m : String) : Nat :=
  sts.countP fun st => st.loc == s && st.stype == "site" && strLeB st.month m

/-- The running `inbound - outbound` sum over the months of the aggregation
month list up to `m`, as claim C1 reads it (the code computes stock
independently of this quantity). -/
def runningNet (ems : List Emit) (months : List String) (w m : String) : Int :=
  ((months.filter fun x => strLeB x m).map
    fun m' => (inboundCount ems w m' : Int) - (outboundCount ems w m' : Int)).sum

/-- `pat` occurs as a contiguous substring (Python `pat in s`). -/
def containsSub (pat : List Char) : List Char → Bool
  | [] => pat.isEmpty
  | c :: rest => pat.isPrefixOf (c :: rest) || containsSub pat rest

/-- The column classification of `_add_total_row` line 139:
`'재고' in col or '누적입고' in col`. -/
def isStockColName (col : String) : Bool :=
  containsSub "재고".toList col.toList || containsSub "누적입고".toList col.toList

/-- One row of a monthly table: the `'월'` cell and the numeric cells,
read off by column name. -/
structure MRow where
  month : String
  val : String → Nat

/-- `_add_total_row` (lines 133-143): append a `'TOTAL'` row whose stock or
cumulative-inbound cells copy the last row and whose other cells are column
sums; an empty table is returned unchanged. -/
def addTotalRow (rows : List MRow) : List MRow :=
  match rows with
  | [] => []
  | r :: rs =>
      (r :: rs) ++
        [MRow.mk "TOTAL" fun col =>
          if isStockColName col then
            (match (r :: rs).getLast? with
             | some x => x.val col
             | none => 0)
          else ((r :: rs).map fun x => x.val col).sum]

/-- The cell of the per-month warehouse dict built by
`_aggregate_warehouse_data` lines 108-112, keyed by column name; a later
warehouse in the list overwrites an earlier one writing the same key,
as dict assignment does. -/
def aggWarehouseVal (sts : List CaseStatus) (ems : List Emit) (ws : List String)
    (m col : String) : Nat :=
  ws.foldl (fun acc w =>
    if col = w ++ "_입고" then inboundCount ems w m
    else if col = w ++ "_출고" then outboundCount ems w m
    else if col = w ++ "_재고" then stockCount sts w m
    else acc) 0

/-- `_aggregate_warehouse_data` (lines 104-117): one row per month plus the
TOTAL row; empty when the month list is empty. -/
def aggregateWarehouseData (sts : List CaseStatus) (ems : List Emit)
    (months ws : List String) : List MRow :=
  addTotalRow (months.map fun m => MRow.mk m (aggWarehouseVal sts ems ws m))

/-- The cell of the per-month site dict built by `_aggregate_site_data`
lines 123-126. -/
def aggSiteVal (sts : List CaseStatus) (ems : List Emit) (ss : List String)
    (m col : String) : Nat :=
  ss.foldl (fun acc s =>
    if col = s ++ "_입고" then siteInCount ems s m
    else if col = s ++ "_누적입고" then cumSiteCount sts s m
    else acc) 0

/-- `_aggregate_site_data` (lines 119-131). -/
def aggregateSiteData (sts : List CaseStatus) (ems : List Emit)
    (months ss : List String) : List MRow :=
  addTotalRow (months.map fun m => MRow.mk m (aggSiteVal sts ems ss m))

/-- The `(prev_loc, prev_type)` state left behind by an already-processed
event, `(None, None)` before the first one. -/
def prevStateOf : Option RawEvent → Option String × Option PrevKind
  | none => (none, none)
  | some p =>
      (some p.loc, some (match p.kind with
        | .warehouse_in => PrevKind.warehouse
        | .site_out => PrevKind.site))

/-- Pairwise restatement of the emission loop, used to settle claim C2: an
outbound is emitted exactly when the immediately preceding event is a
warehouse arrival at a non-empty-named location, tagged to that location
and to the current event's month. -/
def emitsSpecAux (c : String) : Option RawEvent → List RawEvent → List Emit
  | _, [] => []
  | pe, e :: rest =>
      (match e.kind with
       | .warehouse_in => [Emit.mk c "입고" e.loc e.date.month]
       | .site_out =>
           (match pe with
            | some p =>
                if p.kind = RawKind.warehouse_in ∧ p.loc ≠ "" then
                  [Emit.mk c "출고" p.loc e.date.month]
                else []
            | none => []) ++ [Emit.mk c "site_in" e.loc e.date.month]) ++
      emitsSpecAux c (some e) rest

/-- Inbound emissions at `w`, all months (proof helper). -/
def inC (w : String) (l : List Emit) : Nat :=
  l.countP fun e => e.etype == "입고" && e.loc == w

/-- Outbound emissions at `w`, all months (proof helper). -/
def outC (w : String) (l : List Emit) : Nat :=
  l.countP fun e => e.etype == "출고" && e.loc == w

/-- The net contribution the last event of a sequence leaves at warehouse
`w` (proof helper for the tracking-loop invariant). -/
def endContrib (w : String) (es : List RawEvent) : Int :=
  match es.getLast? with
  | some e => if e.kind = RawKind.warehouse_in ∧ e.loc = w then 1 else 0
  | none => 0

/-- The pending outbound at `w` that the previously processed event will
cause if the next event is a site delivery (proof helper). -/
def debtI (w : String) : Option RawEvent → Int
  | some p => if p.kind = RawKind.warehouse_in ∧ p.loc ≠ "" ∧ p.loc = w then 1 else 0
  | none => 0

/-- The outbound at `w` the sequence's opening event will trigger from the
pending state (proof helper). -/
def headDebt (w : String) (pe : Option RawEvent) : List RawEvent → Int
  | [] => 0
  | e :: _ => if e.kind = RawKind.site_out then debtI w pe else 0

/-- The contribution of one terminal state to `stock(w, m)` (proof helper). -/
def statusContrib (w m : String) : Option CaseStatus → Int
  | some st => if st.loc = w ∧ st.stype = "warehouse" ∧ strLeB st.month m = true then 1 else 0
  | none => 0

/-- Computable check that no two consecutive events of a raw movement
sequence are both warehouse arrivals. -/
def noConsecWWB : List RawEvent → Bool
  | [] => true
  | [_] => true
  | a :: b :: t =>
      !(a.kind == RawKind.warehouse_in && b.kind == RawKind.warehouse_in) &&
        noConsecWWB (b :: t)

/-- No two consecutive warehouse arrivals in a raw movement sequence. -/
def noConsecWW (es : List RawEvent) : Prop := noConsecWWB es = true

instance (es : List RawEvent) : Decidable (noConsecWW es) :=
  inferInstanceAs (Decidable (noConsecWWB es = true))

/-- One melted movement record of `_calculate_stock_from_movements`
(line 689): `(case_no, quantity, location, date)` with `NaT` rows dropped. -/
structure MeltRow where
  case_no : String
  quantity : Int
  location : String
  date : Date
deriving DecidableEq

/-- One supplier's normalized movement table with its configured warehouse
columns and the columns actually present in the frame. -/
structure SupplierData where
  rows : List CaseRow
  wcols : List String
  cols : List String

/-- `value_vars = [c for c in all_locs if c in df.columns]` (line 686). -/
def valueVars (sup : SupplierData) (scols : List String) : List String :=
  (sup.wcols ++ scols).filter fun c => sup.cols.contains c

/-- `df.melt(...).dropna(subset=['date'])` (line 689): pandas melt stacks
one location column at a time over all rows. -/
def melt (vv : List String) (rows : List CaseRow) : List MeltRow :=
  vv.flatMap fun v =>
    rows.filterMap fun r => (r.dates v).map fun d => MeltRow.mk r.case_no r.quantity v d

/-- Lexicographic `(case_no, date)` comparison for the sort of line 692. -/
def meltLeB (a b : MeltRow) : Bool :=
  if a.case_no = b.case_no then dateLeB a.date b.date else strLeB a.case_no b.case_no

/-- `melted.sort_values(by=['case_no', 'date'])` (line 692), modelled as a
stable sort (pandas leaves tie order implementation-defined). -/
def sortMelt : List MeltRow → List MeltRow :=
  sortBy meltLeB

/-- `drop_duplicates(subset=['case_no'], keep='last')` (line 693): keep a
row only when no later row carries the same case. -/
def dedupLastByCase : List MeltRow → List MeltRow
  | [] => []
  | r :: rest =>
      if rest.any (fun x => x.case_no == r.case_no) then dedupLastByCase rest
      else r :: dedupLastByCase rest

/-- The `last_status` frame of one supplier (lines 689-693). -/
def supplierKept (sup : SupplierData) (scols : List String) : List MeltRow :=
  dedupLastByCase (sortMelt (melt (valueVars sup scols) sup.rows))

/-- `last_status[last_status['location'].isin(warehouse_cols)]` (line 695). -/
def supplierInWarehouse (sup : SupplierData) (scols : List String) : List MeltRow :=
  (supplierKept sup scols).filter fun r => sup.wcols.contains r.location

/-- `_calculate_stock_from_movements` (lines 678-701): concatenate the
per-supplier in-warehouse last rows and sum quantity per case. -/
def calculateStockFromMovements (sups : List SupplierData) (scols : List String)
    (c : String) : Int :=
  (((sups.flatMap fun sup => supplierInWarehouse sup scols).filter
      fun r => r.case_no == c).map fun r => r.quantity).sum

/-- The most recent recorded movement of case `c` inside one supplier's
melted table. -/
def lastMovementOf (sup : SupplierData) (scols : List String) (c : String) :
    Option MeltRow :=
  ((sortMelt (melt (valueVars sup scols) sup.rows)).filter
    fun r => r.case_no == c).getLast?

/-- Computed from claim C4's wording (not from the code): keep only the
last row per case across ALL suppliers' melted tables combined, then count
it only when that single globally-last location is a warehouse. -/
def specGlobalCalculatedStock (sups : List SupplierData) (scols : List String)
    (c : String) : Int :=
  match ((sortMelt (sups.flatMap fun sup => melt (valueVars sup scols) sup.rows)).filter
      fun r => r.case_no == c).getLast? with
  | some r => if (sups.flatMap fun sup => sup.wcols).contains r.location then r.quantity else 0
  | none => 0

/-- One row of the `Stock_Verification` output of `run_stock_verification`:
case, `CalculatedStock`, `ActualQty`, `Discrepancy`. -/
structure VRow where
  case_no : String
  calculated : Int
  actual : Int
  disc : Int
deriving DecidableEq

/-- First value stored under a case id in a two-column frame. -/
def lookupQty (l : List (String × Int)) (c : String) : Option Int :=
  (l.find? fun p => p.1 == c).map fun p => p.2

/-- `pd.merge(calculated_stock, actual_stock, on='case_no',
how='outer').fillna(0)` (line 187): every calculated row joined to its
on-hand quantity or 0, then the unmatched on-hand rows with calculated 0
(pandas orders an outer join by key; no theorem below depends on row
order). -/
def outerMergeFill (calcTbl onhand : List (String × Int)) : List (String × Int × Int) :=
  (calcTbl.map fun p => (p.1, p.2, (lookupQty onhand p.1).getD 0)) ++
  ((onhand.filter fun q => !(calcTbl.any fun p => p.1 == q.1)).map fun q => (q.1, 0, q.2))

/-- `run_stock_verification` (lines 174-192): empty when the on-hand frame
is empty (line 176) or when no stock could be calculated from movements
(line 183); otherwise the outer join with `Discrepancy = ActualQty -
CalculatedStock`, keeping only non-zero discrepancies. -/
def runStockVerification (onhand calcTbl : List (String × Int)) : List VRow :=
  if onhand = [] then []
  else if calcTbl = [] then []
  else ((outerMergeFill calcTbl onhand).map fun t =>
      VRow.mk t.1 t.2.1 t.2.2 (t.2.2 - t.2.1)).filter fun r => !(r.disc == 0)

/-- `col_norm`/`pat_norm` of `DataNormalizer._find_column` (lines 40-42):
drop spaces and underscores, lowercase. -/
def normCol (s : String) : List Char :=
  (s.toList.filter fun c => !(c == ' ') && !(c == '_')).map Char.toLower

/-- `pat_norm in col_norm or col_norm in pat_norm` (line 43). -/
def colMatches (pat col : String) : Bool :=
  containsSub (normCol pat) (normCol col) || containsSub (normCol col) (normCol pat)

/-- `DataNormalizer._find_column` (lines 36-45): the first frame column
matching any pattern. -/
def findColumn (patterns cols : List String) : Option String :=
  cols.find? fun col => patterns.any fun pat => colMatches pat col

/-- Python `str()` of an optionally-missing cell: `astype(str)` renders a
missing value as the string `'nan'`. -/
def pyStr : Option String → String
  | none => "nan"
  | some s => s

/-- The case-identifier path of `DataNormalizer.normalize` (lines 61-72):
if no column matches the `case_no` patterns the whole table is rejected
(`return None`); otherwise every row is kept and its identifier is
`astype(str)` of the cell. -/
def normalizeCaseIds (patterns cols : List String)
    (rows : List (String → Option String)) : Option (List String) :=
  match findColumn patterns cols with
  | none => none
  | some c => some (rows.map fun r => pyStr (r c))

/-- A consolidated cross-supplier monthly table: its column set and rows. -/
structure ConsolidatedTable where
  cols : List String
  rows : List MRow

/-- Modelled from the spec: the `Consolidated_WH_Status` builder is not
among the analyzed sources; spec §4.5 says to union the per-supplier
monthly warehouse tables without their TOTAL rows, group by month summing
inbound/outbound and taking the last stock value, append a recomputed
TOTAL row under the same rule, and drop every column of an excluded
warehouse from the final column set. -/
def consolidateWH (tables : List (List MRow)) (supplierCols : List (List String))
    (excluded : List String) (months : List String) : ConsolidatedTable :=
  let keep : String → Bool := fun col =>
    !(excluded.any fun w =>
      col == w ++ "_입고" || col == w ++ "_출고" || col == w ++ "_재고")
  let body := tables.flatMap fun t => t.filter fun r => !(r.month == "TOTAL")
  let grouped := months.map fun m =>
    MRow.mk m fun col =>
      if isStockColName col then
        (match (body.filter fun r => r.month == m).getLast? with
         | some r => r.val col
         | none => 0)
      else ((body.filter fun r => r.month == m).map fun r => r.val col).sum
  ConsolidatedTable.mk ((supplierCols.flatMap id).filter keep) (addTotalRow grouped)

/-! ## Order lemmas for the modelled Python string comparison -/

theorem string_ext {a b : String} (h : a.toList = b.toList) : a = b := by
  cases a; cases b; exact congrArg String.mk h

theorem lexLeB_refl (a : List Char) : lexLeB a a = true := by
  induction a with
  | nil => rfl
  | cons c cs ih => simp [lexLeB, ih]

theorem lexLeB_trans : ∀ {a b c : List Char},
    lexLeB a b = true → lexLeB b c = true → lexLeB a c = true
  | [], _, _, _, _ => rfl
  | _ :: _, [], _, h1, _ => by simp [lexLeB] at h1
  | _ :: _, _ :: _, [], _, h2 => by simp [lexLeB] at h2
  | x :: xs, y :: ys, z :: zs, h1, h2 => by
    simp only [lexLeB] at h1 h2 ⊢
    rcases lt_trichotomy x y with hxy | hxy | hxy
    · rcases lt_trichotomy y z with hyz | hyz | hyz
      · simp [lt_trans hxy hyz]
      · subst hyz; simp [hxy]
      · rw [if_neg (lt_asymm hyz), if_neg (ne_of_gt hyz)] at h2; exact absurd h2 (by simp)
    · subst hxy
      rw [if_neg (lt_irrefl x), if_pos rfl] at h1
      rcases lt_trichotomy x z with hyz | hyz | hyz
      · simp [hyz]
      · subst hyz
        rw [if_neg (lt_irrefl x), if_pos rfl] at h2 ⊢
        exact lexLeB_trans h1 h2
      · rw [if_neg (lt_asymm hyz), if_neg (ne_of_gt hyz)] at h2; exact absurd h2 (by simp)
    · rw [if_neg (lt_asymm hxy), if_neg (ne_of_gt hxy)] at h1; exact absurd h1 (by simp)

theorem lexLeB_total : ∀ (a b : List Char), lexLeB a b = true ∨ lexLeB b a = true
  | [], _ => Or.inl rfl
  | _ :: _, [] => Or.inr rfl
  | x :: xs, y :: ys => by
    simp only [lexLeB]
    rcases lt_trichotomy x y with hxy | hxy | hxy
    · exact Or.inl (by simp [hxy])
    · subst hxy
      rcases lexLeB_total xs ys with h | h
      · exact Or.inl (by simp [h])
      · exact Or.inr (by simp [h])
    · exact Or.inr (by simp [hxy])

theorem lexLeB_antisymm : ∀ {a b : List Char},
    lexLeB a b = true → lexLeB b a = true → a = b
  | [], [], _, _ => rfl
  | [], _ :: _, _, h2 => by simp [lexLeB] at h2
  | _ :: _, [], h1, _ => by simp [lexLeB] at h1
  | x :: xs, y :: ys, h1, h2 => by
    simp only [lexLeB] at h1 h2
    rcases lt_trichotomy x y with hxy | hxy | hxy
    · rw [if_neg (lt_asymm hxy), if_neg (ne_of_gt hxy)] at h2; exact absurd h2 (by simp)
    · subst hxy
      rw [if_neg (lt_irrefl x), if_pos rfl] at h1 h2
      exact congrArg (x :: ·) (lexLeB_antisymm h1 h2)
    · rw [if_neg (lt_asymm hxy), if_neg (ne_of_gt hxy)] at h1; exact absurd h1 (by simp)

theorem strLeB_refl (a : String) : strLeB a a = true := lexLeB_refl _

theorem strLeB_trans {a b c : String} (h1 : strLeB a b = true)
    (h2 : strLeB b c = true) : strLeB a c = true := lexLeB_trans h1 h2

theorem strLeB_total (a b : String) : strLeB a b = true ∨ strLeB b a = true :=
  lexLeB_total _ _

theorem strLeB_antisymm {a b : String} (h1 : strLeB a b = true)
    (h2 : strLeB b a = true) : a = b := string_ext (lexLeB_antisymm h1 h2)

theorem dateLeB_refl (a : Date) : dateLeB a a = true := by simp [dateLeB]

theorem dateLeB_trans {a b c : Date} (h1 : dateLeB a b = true)
    (h2 : dateLeB b c = true) : dateLeB a c = true := by
  unfold dateLeB at h1 h2 ⊢
  by_cases hab : a.month = b.month
  · rw [if_pos hab] at h1
    by_cases hbc : b.month = c.month
    · rw [if_pos hbc] at h2
      rw [if_pos (hab.trans hbc)]
      simp only [decide_eq_true_eq] at h1 h2 ⊢
      omega
    · rw [if_neg hbc] at h2
      rw [if_neg (hab ▸ hbc), hab]
      exact h2
  · rw [if_neg hab] at h1
    by_cases hbc : b.month = c.month
    · rw [if_neg (fun h => hab (h.trans hbc.symm)), ← hbc]
      exact h1
    · rw [if_neg hbc] at h2
      by_cases hac : a.month = c.month
      · exact absurd (strLeB_antisymm h1 (hac ▸ h2)) hab
      · rw [if_neg hac]
        exact strLeB_trans h1 h2

theorem dateLeB_total (a b : Date) : dateLeB a b = true ∨ dateLeB b a = true := by
  unfold dateLeB
  by_cases hab : a.month = b.month
  · rw [if_pos hab, if_pos hab.symm]
    simp only [decide_eq_true_eq]
    omega
  · rw [if_neg hab, if_neg (fun h => hab h.symm)]
    exact strLeB_total _ _

/-! ## Counting and summing helpers -/

theorem countP_ext {l : List α} {p q : α → Bool} (h : ∀ a ∈ l, p a = q a) :
    l.countP p = l.countP q := by
  induction l with
  | nil => rfl
  | cons x xs ih =>
    rw [List.countP_cons, List.countP_cons, h x (by simp),
      ih fun a ha => h a (by simp [ha])]

theorem countP_and_of_true {l : List α} {p q : α → Bool}
    (h : ∀ a ∈ l, q a = true) :
    (l.countP fun a => p a && q a) = l.countP p :=
  countP_ext fun a ha => by rw [h a ha, Bool.and_true]

theorem countP_or_disjoint {l : List α} {p q : α → Bool}
    (h : ∀ a ∈ l, ¬(p a = true ∧ q a = true)) :
    (l.countP fun a => p a || q a) = l.countP p + l.countP q := by
  induction l with
  | nil => rfl
  | cons x xs ih =>
    rw [List.countP_cons, List.countP_cons, List.countP_cons,
      ih fun a ha => h a (by simp [ha])]
    rcases hp : p x <;> rcases hq : q x <;> simp_all <;> omega

theorem sum_map_sub {l : List α} (f g : α → Int) :
    (l.map fun a => f a - g a).sum = (l.map f).sum - (l.map g).sum := by
  induction l with
  | nil => simp
  | cons x xs ih => simp [ih]; ring

/-! ## Stable insertion sort lemmas -/

theorem mem_insertBy {le : α → α → Bool} {x z : α} :
    ∀ {l : List α}, z ∈ insertBy le x l ↔ z = x ∨ z ∈ l
  | [] => by simp [insertBy]
  | y :: ys => by
    simp only [insertBy]
    split
    · simp
    · rw [List.mem_cons, List.mem_cons, mem_insertBy]
      tauto

theorem pairwise_insertBy {le : α → α → Bool}
    (htrans : ∀ a b c, le a b = true → le b c = true → le a c = true)
    (htot : ∀ a b, le a b = true ∨ le b a = true) {x : α} :
    ∀ {l : List α}, List.Pairwise (fun a b => le a b = true) l →
      List.Pairwise (fun a b => le a b = true) (insertBy le x l)
  | [], _ => by simp [insertBy]
  | y :: ys, h => by
    rcases List.pairwise_cons.mp h with ⟨hy, hys⟩
    simp only [insertBy]
    split
    · rename_i hxy
      exact List.pairwise_cons.mpr
        ⟨fun z hz => by
          rcases List.mem_cons.mp hz with rfl | hz
          · exact hxy
          · exact htrans _ _ _ hxy (hy z hz), h⟩
    · rename_i hxy
      refine List.pairwise_cons.mpr ⟨fun z hz => ?_, pairwise_insertBy htrans htot hys⟩
      rcases mem_insertBy.mp hz with rfl | hz
      · rcases htot z y with hzy | hyz
        · exact absurd hzy hxy
        · exact hyz
      · exact hy z hz

theorem sortBy_pairwise {le : α → α → Bool}
    (htrans : ∀ a b c, le a b = true → le b c = true → le a c = true)
    (htot : ∀ a b, le a b = true ∨ le b a = true) :
    ∀ (l : List α), List.Pairwise (fun a b => le a b = true) (sortBy le l)
  | [] => List.Pairwise.nil
  | _x :: xs => pairwise_insertBy htrans htot (sortBy_pairwise htrans htot xs)

theorem filter_insertBy_pos {le : α → α → Bool} {p : α → Bool} {x : α}
    (hx : p x = true) (h : ∀ y, p y = true → le x y = true) :
    ∀ (l : List α), (insertBy le x l).filter p = x :: l.filter p
  | [] => by simp [insertBy, hx]
  | y :: ys => by
    simp only [insertBy]
    split
    · simp [hx]
    · rename_i hxy
      have hpy : p y = false := by
        rcases hp : p y
        · rfl
        · exact absurd (h y hp) hxy
      rw [List.filter_cons_of_neg (by simp [hpy]), filter_insertBy_pos hx h ys,
        List.filter_cons_of_neg (by simp [hpy])]

theorem filter_insertBy_neg {le : α → α → Bool} {p : α → Bool} {x : α}
    (hx : p x = false) : ∀ (l : List α), (insertBy le x l).filter p = l.filter p
  | [] => by simp [insertBy, hx]
  | y :: ys => by
    simp only [insertBy]
    split
    · simp [hx]
    · rcases hpy : p y
      · rw [List.filter_cons_of_neg (by simp [hpy]), filter_insertBy_neg hx ys,
          List.filter_cons_of_neg (by simp [hpy])]
      · rw [List.filter_cons_of_pos (by simp [hpy]), filter_insertBy_neg hx ys,
          List.filter_cons_of_pos (by simp [hpy])]

theorem sortBy_filter_stable {le : α → α → Bool} {p : α → Bool}
    (hkey : ∀ x y, p x = true → p y = true → le x y = true) :
    ∀ (l : List α), (sortBy le l).filter p = l.filter p
  | [] => rfl
  | x :: xs => by
    simp only [sortBy]
    rcases hx : p x
    · rw [filter_insertBy_neg hx, sortBy_filter_stable hkey xs,
        List.filter_cons_of_neg (by simp [hx])]
    · rw [filter_insertBy_pos hx (fun y hy => hkey x y hx hy), sortBy_filter_stable hkey xs,
        List.filter_cons_of_pos (by simp [hx])]

/-! ## The emission loop equals its pairwise restatement -/

theorem track_eq_spec (c : String) : ∀ (es : List RawEvent) (pe : Option RawEvent),
    trackEvents c es (prevStateOf pe).1 (prevStateOf pe).2 = emitsSpecAux c pe es := by
  intro es
  induction es with
  | nil => intro pe; cases pe <;> rfl
  | cons e rest ih =>
    intro pe
    obtain ⟨d, l, k⟩ := e
    cases k with
    | warehouse_in =>
      cases pe with
      | none =>
        simp only [trackEvents, emitsSpecAux, prevStateOf, List.singleton_append]
        exact congrArg _ (ih (some ⟨d, l, RawKind.warehouse_in⟩))
      | some p =>
        simp only [trackEvents, emitsSpecAux, prevStateOf, List.singleton_append]
        exact congrArg _ (ih (some ⟨d, l, RawKind.warehouse_in⟩))
    | site_out =>
      have htail' : trackEvents c rest (some l) (some PrevKind.site) =
          emitsSpecAux c (some ⟨d, l, RawKind.site_out⟩) rest :=
        ih (some ⟨d, l, RawKind.site_out⟩)
      cases pe with
      | none =>
        simp only [trackEvents, emitsSpecAux, prevStateOf, truthy]
        simp [htail']
      | some p =>
        obtain ⟨pd, ploc, pk⟩ := p
        cases pk with
        | warehouse_in =>
          by_cases hpl : ploc = ""
          · subst hpl
            simp only [trackEvents, emitsSpecAux, prevStateOf, truthy]
            simp [htail']
          · have hbeq : (ploc == "") = false := beq_eq_false_iff_ne.mpr hpl
            simp only [trackEvents, emitsSpecAux, prevStateOf, truthy]
            simp [htail', hbeq, hpl]
        | site_out =>
          simp only [trackEvents, emitsSpecAux, prevStateOf, truthy]
          simp [htail']

/-- The whole `_track_case_events` loop on a case, written per adjacent
pair of raw events. -/
theorem caseEmits_eq_spec (wcols scols : List String) (r : CaseRow) :
    caseEmits wcols scols r = emitsSpecAux r.case_no none (caseEvents wcols scols r) :=
  track_eq_spec r.case_no (caseEvents wcols scols r) none

/-! ## Counting invariants of the emission loop -/

theorem debtI_nonneg (w : String) (pe : Option RawEvent) : 0 ≤ debtI w pe := by
  cases pe with
  | none => simp [debtI]
  | some p => simp only [debtI]; split <;> norm_num

theorem endContrib_cons_cons (w : String) (a b : RawEvent) (t : List RawEvent) :
    endContrib w (a :: b :: t) = endContrib w (b :: t) := by
  simp [endContrib, List.getLast?_cons_cons]

theorem beq_etype_site_in_in : (("site_in" : String) == "입고") = false := by decide

theorem beq_etype_site_in_out : (("site_in" : String) == "출고") = false := by decide

theorem beq_etype_out_in : (("출고" : String) == "입고") = false := by decide

theorem beq_etype_in_out : (("입고" : String) == "출고") = false := by decide

/-- Unfolding of the spec emission on a warehouse arrival. -/
theorem emitsSpecAux_cons_wh (c : String) (pe : Option RawEvent) (d : Date) (l : String)
    (rest : List RawEvent) :
    emitsSpecAux c pe (⟨d, l, RawKind.warehouse_in⟩ :: rest) =
      Emit.mk c "입고" l d.month ::
        emitsSpecAux c (some ⟨d, l, RawKind.warehouse_in⟩) rest := by
  cases pe <;> rfl

/-- Unfolding of the spec emission on a site delivery whose predecessor is
not a warehouse arrival at a non-empty location. -/
theorem emitsSpecAux_cons_site_neg (c : String) (pe : Option RawEvent) (d : Date)
    (l : String) (rest : List RawEvent)
    (h : ∀ p, pe = some p → ¬(p.kind = RawKind.warehouse_in ∧ p.loc ≠ "")) :
    emitsSpecAux c pe (⟨d, l, RawKind.site_out⟩ :: rest) =
      Emit.mk c "site_in" l d.month ::
        emitsSpecAux c (some ⟨d, l, RawKind.site_out⟩) rest := by
  cases pe with
  | none => rfl
  | some p =>
    show (if p.kind = RawKind.warehouse_in ∧ p.loc ≠ "" then
        [Emit.mk c "출고" p.loc d.month] else []) ++ [Emit.mk c "site_in" l d.month] ++
        emitsSpecAux c (some ⟨d, l, RawKind.site_out⟩) rest = _
    rw [if_neg (h p rfl)]
    rfl

/-- Unfolding of the spec emission on a site delivery following a
warehouse arrival at a non-empty location. -/
theorem emitsSpecAux_cons_site_pos (c : String) (p : RawEvent) (d : Date)
    (l : String) (rest : List RawEvent)
    (h : p.kind = RawKind.warehouse_in ∧ p.loc ≠ "") :
    emitsSpecAux c (some p) (⟨d, l, RawKind.site_out⟩ :: rest) =
      Emit.mk c "출고" p.loc d.month :: Emit.mk c "site_in" l d.month ::
        emitsSpecAux c (some ⟨d, l, RawKind.site_out⟩) rest := by
  show (if p.kind = RawKind.warehouse_in ∧ p.loc ≠ "" then
      [Emit.mk c "출고" p.loc d.month] else []) ++ [Emit.mk c "site_in" l d.month] ++
      emitsSpecAux c (some ⟨d, l, RawKind.site_out⟩) rest = _
  rw [if_pos h]
  rfl

theorem spec_out_le_in (c w : String) : ∀ (es : List RawEvent) (pe : Option RawEvent),
    (outC w (emitsSpecAux c pe es) : Int) ≤ inC w (emitsSpecAux c pe es) + debtI w pe := by
  intro es
  induction es with
  | nil =>
    intro pe
    simpa [emitsSpecAux, inC, outC] using debtI_nonneg w pe
  | cons e rest ih =>
    intro pe
    obtain ⟨d, l, k⟩ := e
    have hpe := debtI_nonneg w pe
    cases k with
    | warehouse_in =>
      have hrec := ih (some ⟨d, l, RawKind.warehouse_in⟩)
      rw [emitsSpecAux_cons_wh]
      have hout : outC w (Emit.mk c "입고" l d.month ::
          emitsSpecAux c (some ⟨d, l, RawKind.warehouse_in⟩) rest) =
          outC w (emitsSpecAux c (some ⟨d, l, RawKind.warehouse_in⟩) rest) := by
        simp [outC, List.countP_cons, beq_etype_in_out]
      rw [hout]
      by_cases hl : l = w
      · have hlb : (l == w) = true := by simp [hl]
        have hin : inC w (Emit.mk c "입고" l d.month ::
            emitsSpecAux c (some ⟨d, l, RawKind.warehouse_in⟩) rest) =
            inC w (emitsSpecAux c (some ⟨d, l, RawKind.warehouse_in⟩) rest) + 1 := by
          simp [inC, List.countP_cons, hlb]
        have hdebt : debtI w (some (⟨d, l, RawKind.warehouse_in⟩ : RawEvent)) ≤ 1 := by
          simp only [debtI]
          split <;> norm_num
        rw [hin]
        push_cast
        linarith
      · have hlb : (l == w) = false := beq_eq_false_iff_ne.mpr hl
        have hin : inC w (Emit.mk c "입고" l d.month ::
            emitsSpecAux c (some ⟨d, l, RawKind.warehouse_in⟩) rest) =
            inC w (emitsSpecAux c (some ⟨d, l, RawKind.warehouse_in⟩) rest) := by
          simp [inC, List.countP_cons, hlb]
        have hdebt : debtI w (some (⟨d, l, RawKind.warehouse_in⟩ : RawEvent)) = 0 := by
          simp only [debtI]
          rw [if_neg (by tauto)]
        rw [hin]
        rw [hdebt] at hrec
        linarith
    | site_out =>
      have hrec := ih (some ⟨d, l, RawKind.site_out⟩)
      rw [show debtI w (some (⟨d, l, RawKind.site_out⟩ : RawEvent)) = 0 by simp [debtI]]
        at hrec
      have hsite_in : ∀ L : List Emit, inC w (Emit.mk c "site_in" l d.month :: L) = inC w L := by
        intro L
        simp [inC, List.countP_cons, beq_etype_site_in_in]
      have hsite_out : ∀ L : List Emit, outC w (Emit.mk c "site_in" l d.month :: L) =
          outC w L := by
        intro L
        simp [outC, List.countP_cons, beq_etype_site_in_out]
      by_cases hg : ∃ p, pe = some p ∧ p.kind = RawKind.warehouse_in ∧ p.loc ≠ ""
      · obtain ⟨p, rfl, hp⟩ := hg
        rw [emitsSpecAux_cons_site_pos c p d l rest hp]
        have hin : inC w (Emit.mk c "출고" p.loc d.month :: Emit.mk c "site_in" l d.month ::
            emitsSpecAux c (some ⟨d, l, RawKind.site_out⟩) rest) =
            inC w (emitsSpecAux c (some ⟨d, l, RawKind.site_out⟩) rest) := by
          simp [inC, List.countP_cons, beq_etype_out_in, beq_etype_site_in_in]
        have hout : (outC w (Emit.mk c "출고" p.loc d.month ::
            Emit.mk c "site_in" l d.month ::
            emitsSpecAux c (some ⟨d, l, RawKind.site_out⟩) rest) : Int) =
            outC w (emitsSpecAux c (some ⟨d, l, RawKind.site_out⟩) rest) + debtI w (some p) := by
          have hd : debtI w (some p) = if (p.loc == w) = true then 1 else 0 := by
            simp only [debtI]
            by_cases hlw : p.loc = w
            · rw [if_pos ⟨hp.1, hp.2, hlw⟩, if_pos (by simp [hlw])]
            · rw [if_neg (by tauto), if_neg (by simp [beq_eq_false_iff_ne.mpr hlw])]
          rw [hd]
          by_cases hlw : (p.loc == w) = true <;>
            simp [outC, List.countP_cons, beq_etype_site_in_out, hlw]
        rw [hin, hout]
        linarith
      · rw [emitsSpecAux_cons_site_neg c pe d l rest
          (fun p hp hc => hg ⟨p, hp, hc⟩)]
        rw [hsite_in, hsite_out]
        linarith

theorem noConsecWW_tail {e : RawEvent} {rest : List RawEvent}
    (h : noConsecWW (e :: rest)) : noConsecWW rest := by
  cases rest with
  | nil => rfl
  | cons b t =>
    simp only [noConsecWW, noConsecWWB, Bool.and_eq_true] at h ⊢
    exact h.2

theorem noConsecWW_head {a b : RawEvent} {t : List RawEvent} (h : noConsecWW (a :: b :: t)) :
    ¬(a.kind = RawKind.warehouse_in ∧ b.kind = RawKind.warehouse_in) := by
  intro hc
  have hb : (a.kind == RawKind.warehouse_in && b.kind == RawKind.warehouse_in) = true := by
    simp [hc.1, hc.2]
  simp only [noConsecWW, noConsecWWB, Bool.and_eq_true, Bool.not_eq_true'] at h
  simp [hb] at h

theorem spec_net (c w : String) : ∀ (es : List RawEvent) (pe : Option RawEvent),
    noConsecWW es → (∀ e ∈ es, e.kind = RawKind.warehouse_in → e.loc ≠ "") →
    (inC w (emitsSpecAux c pe es) : Int) - outC w (emitsSpecAux c pe es) =
      endContrib w es - headDebt w pe es := by
  intro es
  induction es with
  | nil =>
    intro pe _ _
    simp [emitsSpecAux, inC, outC, endContrib, headDebt]
  | cons e rest ih =>
    intro pe hch hne
    obtain ⟨d, l, k⟩ := e
    have hch' : noConsecWW rest := noConsecWW_tail hch
    have hne' : ∀ e ∈ rest, e.kind = RawKind.warehouse_in → e.loc ≠ "" :=
      fun e he hk => hne e (List.mem_cons_of_mem _ he) hk
    cases k with
    | warehouse_in =>
      have hl : l ≠ "" := hne _ (List.mem_cons_self _ _) rfl
      rw [emitsSpecAux_cons_wh]
      have hout : outC w (Emit.mk c "입고" l d.month ::
          emitsSpecAux c (some ⟨d, l, RawKind.warehouse_in⟩) rest) =
          outC w (emitsSpecAux c (some ⟨d, l, RawKind.warehouse_in⟩) rest) := by
        simp [outC, List.countP_cons, beq_etype_in_out]
      have hin : (inC w (Emit.mk c "입고" l d.month ::
          emitsSpecAux c (some ⟨d, l, RawKind.warehouse_in⟩) rest) : Int) =
          inC w (emitsSpecAux c (some ⟨d, l, RawKind.warehouse_in⟩) rest) +
            (if l = w then 1 else 0) := by
        by_cases hlw : l = w
        · simp [inC, List.countP_cons, hlw]
        · simp [inC, List.countP_cons, beq_eq_false_iff_ne.mpr hlw, hlw]
      rw [hout, hin]
      have hfrontDebt : headDebt w pe (⟨d, l, RawKind.warehouse_in⟩ :: rest) = 0 := by
        simp [headDebt]
      rw [hfrontDebt]
      cases rest with
      | nil =>
        have hz : emitsSpecAux c (some (⟨d, l, RawKind.warehouse_in⟩ : RawEvent)) [] = [] :=
          rfl
        rw [hz]
        simp only [inC, outC, List.countP_nil, endContrib, List.getLast?_singleton]
        by_cases hlw : l = w <;> simp [hlw]
      | cons f rest' =>
        have hf : f.kind = RawKind.site_out := by
          have hrel := noConsecWW_head hch
          cases hfk : f.kind
          · exact absurd ⟨rfl, hfk⟩ hrel
          · rfl
        have hrec := ih (some ⟨d, l, RawKind.warehouse_in⟩) hch' hne'
        have hdg : headDebt w (some (⟨d, l, RawKind.warehouse_in⟩ : RawEvent)) (f :: rest') =
            if l = w then 1 else 0 := by
          simp only [headDebt, hf, if_pos rfl, debtI]
          by_cases hlw : l = w
          · subst hlw
            simp [hl]
          · simp [hlw]
        rw [hdg] at hrec
        rw [endContrib_cons_cons]
        linarith
    | site_out =>
      have hfrontDebt : headDebt w pe (⟨d, l, RawKind.site_out⟩ :: rest) = debtI w pe := by
        simp [headDebt]
      have hrec := ih (some ⟨d, l, RawKind.site_out⟩) hch' hne'
      have hdz : headDebt w (some (⟨d, l, RawKind.site_out⟩ : RawEvent)) rest = 0 := by
        cases rest with
        | nil => rfl
        | cons f rest' =>
          simp only [headDebt, debtI]
          split
          · rw [if_neg (by rintro ⟨h, -⟩; exact absurd h (by simp))]
          · rfl
      rw [hdz] at hrec
      have hend : endContrib w (⟨d, l, RawKind.site_out⟩ :: rest) = endContrib w rest := by
        cases rest with
        | nil =>
          simp only [endContrib, List.getLast?_singleton]
          rw [if_neg (by rintro ⟨h, -⟩; exact absurd h (by simp))]
          rfl
        | cons f rest' => exact endContrib_cons_cons w _ f rest'
      rw [hfrontDebt, hend]
      have hsite_in : ∀ L : List Emit, inC w (Emit.mk c "site_in" l d.month :: L) = inC w L := by
        intro L
        simp [inC, List.countP_cons, beq_etype_site_in_in]
      have hsite_out : ∀ L : List Emit, outC w (Emit.mk c "site_in" l d.month :: L) =
          outC w L := by
        intro L
        simp [outC, List.countP_cons, beq_etype_site_in_out]
      by_cases hg : ∃ p, pe = some p ∧ p.kind = RawKind.warehouse_in ∧ p.loc ≠ ""
      · obtain ⟨p, rfl, hp⟩ := hg
        rw [emitsSpecAux_cons_site_pos c p d l rest hp]
        have hin : inC w (Emit.mk c "출고" p.loc d.month :: Emit.mk c "site_in" l d.month ::
            emitsSpecAux c (some ⟨d, l, RawKind.site_out⟩) rest) =
            inC w (emitsSpecAux c (some ⟨d, l, RawKind.site_out⟩) rest) := by
          simp [inC, List.countP_cons, beq_etype_out_in, beq_etype_site_in_in]
        have hout : (outC w (Emit.mk c "출고" p.loc d.month ::
            Emit.mk c "site_in" l d.month ::
            emitsSpecAux c (some ⟨d, l, RawKind.site_out⟩) rest) : Int) =
            outC w (emitsSpecAux c (some ⟨d, l, RawKind.site_out⟩) rest) + debtI w (some p) := by
          have hd : debtI w (some p) = if (p.loc == w) = true then 1 else 0 := by
            simp only [debtI]
            by_cases hlw : p.loc = w
            · rw [if_pos ⟨hp.1, hp.2, hlw⟩, if_pos (by simp [hlw])]
            · rw [if_neg (by tauto), if_neg (by simp [beq_eq_false_iff_ne.mpr hlw])]
          rw [hd]
          by_cases hlw : (p.loc == w) = true <;>
            simp [outC, List.countP_cons, beq_etype_site_in_out, hlw]
        rw [hin, hout]
        linarith
      · have hdpe : debtI w pe = 0 := by
          cases pe with
          | none => rfl
          | some p =>
            simp only [debtI]
            rw [if_neg (by rintro ⟨h1, h2, -⟩; exact hg ⟨p, rfl, h1, h2⟩)]
        rw [emitsSpecAux_cons_site_neg c pe d l rest (fun p hp hc => hg ⟨p, hp, hc⟩)]
        rw [hsite_in, hsite_out, hdpe]
        linarith

/-- Every month tag carried by an emitted event is the month of one of the
raw events (outbounds are tagged to the site event's month). -/
theorem spec_months (c : String) : ∀ (es : List RawEvent) (pe : Option RawEvent) (em : Emit),
    em ∈ emitsSpecAux c pe es → ∃ e ∈ es, em.month = e.date.month := by
  intro es
  induction es with
  | nil =>
    intro pe em h
    simp [emitsSpecAux] at h
  | cons e rest ih =>
    intro pe em hmem
    obtain ⟨d, l, k⟩ := e
    cases k with
    | warehouse_in =>
      rw [emitsSpecAux_cons_wh] at hmem
      rcases List.mem_cons.mp hmem with rfl | h
      · exact ⟨⟨d, l, RawKind.warehouse_in⟩, List.mem_cons_self _ _, rfl⟩
      · obtain ⟨e', he', hm⟩ := ih _ em h
        exact ⟨e', List.mem_cons_of_mem _ he', hm⟩
    | site_out =>
      by_cases hg : ∃ p, pe = some p ∧ p.kind = RawKind.warehouse_in ∧ p.loc ≠ ""
      · obtain ⟨p, rfl, hp⟩ := hg
        rw [emitsSpecAux_cons_site_pos c p d l rest hp] at hmem
        rcases List.mem_cons.mp hmem with rfl | hmem2
        · exact ⟨⟨d, l, RawKind.site_out⟩, List.mem_cons_self _ _, rfl⟩
        rcases List.mem_cons.mp hmem2 with rfl | h
        · exact ⟨⟨d, l, RawKind.site_out⟩, List.mem_cons_self _ _, rfl⟩
        · obtain ⟨e', he', hm⟩ := ih _ em h
          exact ⟨e', List.mem_cons_of_mem _ he', hm⟩
      · rw [emitsSpecAux_cons_site_neg c pe d l rest (fun p hp hc => hg ⟨p, hp, hc⟩)] at hmem
        rcases List.mem_cons.mp hmem with rfl | h
        · exact ⟨⟨d, l, RawKind.site_out⟩, List.mem_cons_self _ _, rfl⟩
        · obtain ⟨e', he', hm⟩ := ih _ em h
          exact ⟨e', List.mem_cons_of_mem _ he', hm⟩

theorem countP_mono_of_imp {l : List α} {p q : α → Bool}
    (h : ∀ a ∈ l, p a = true → q a = true) : l.countP p ≤ l.countP q := by
  induction l with
  | nil => exact Nat.le_refl 0
  | cons x xs ih =>
    rw [List.countP_cons, List.countP_cons]
    have hxs := ih fun a ha => h a (by simp [ha])
    rcases hp : p x
    · simp only [Bool.false_eq_true, if_false]
      omega
    · rw [h x (by simp) hp]
      simp only [if_pos rfl]
      omega

/-! ## Bridging lemmas for claim C1 -/

theorem headDebt_none (w : String) : ∀ (es : List RawEvent), headDebt w none es = 0
  | [] => rfl
  | e :: _ => by
    simp only [headDebt, debtI]
    split <;> rfl

theorem countP_flatMap {l : List α} (f : α → List β) (p : β → Bool) :
    (l.flatMap f).countP p = (l.map fun a => (f a).countP p).sum := by
  induction l with
  | nil => rfl
  | cons x xs ih => simp [List.flatMap_cons, List.countP_append, ih]

theorem sum_map_natCast {l : List α} (f : α → Nat) :
    (l.map fun a => (f a : Int)).sum = ((l.map f).sum : Int) := by
  induction l with
  | nil => simp
  | cons x xs ih => simp [ih]

theorem countP_month_partition {base : Emit → Bool} {ems : List Emit} :
    ∀ {ms : List String}, ms.Nodup →
      ((ms.map fun m' => ems.countP fun e => base e && e.month == m').sum) =
        ems.countP fun e => base e && decide (e.month ∈ ms) := by
  intro ms
  induction ms with
  | nil =>
    intro _
    rw [List.map_nil, List.sum_nil]
    rw [countP_ext (q := fun _ => false) (fun a _ => by simp)]
    simp
  | cons m0 ms ih =>
    intro hnd
    rw [List.map_cons, List.sum_cons, ih (List.nodup_cons.mp hnd).2]
    have hdisj : ∀ e ∈ ems,
        ¬((base e && e.month == m0) = true ∧ (base e && decide (e.month ∈ ms)) = true) := by
      rintro e _ ⟨h1, h2⟩
      simp only [Bool.and_eq_true, beq_iff_eq, decide_eq_true_eq] at h1 h2
      exact (List.nodup_cons.mp hnd).1 (h1.2 ▸ h2.2)
    rw [← countP_or_disjoint hdisj]
    apply countP_ext
    intro e _
    rcases hb : base e
    · simp
    · simp only [hb, Bool.true_and]
      by_cases h0 : e.month = m0 <;> simp [h0, List.mem_cons]

theorem runningNet_eq_counts (ems : List Emit) (months : List String) (w m : String)
    (hnodup : months.Nodup)
    (hcov : ∀ em ∈ ems, em.month ∈ months)
    (hle : ∀ em ∈ ems, strLeB em.month m = true) :
    runningNet ems months w m = (inC w ems : Int) - outC w ems := by
  have hnd' : (months.filter fun x => strLeB x m).Nodup := hnodup.filter _
  have hcov' : ∀ em ∈ ems, em.month ∈ months.filter fun x => strLeB x m :=
    fun em hm => List.mem_filter.mpr ⟨hcov em hm, hle em hm⟩
  have h1 : (((months.filter fun x => strLeB x m).map
      fun m' => inboundCount ems w m')).sum = inC w ems := by
    unfold inboundCount inC
    rw [countP_month_partition hnd']
    exact countP_and_of_true fun e he => decide_eq_true (hcov' e he)
  have h2 : (((months.filter fun x => strLeB x m).map
      fun m' => outboundCount ems w m')).sum = outC w ems := by
    unfold outboundCount outC
    rw [countP_month_partition hnd']
    exact countP_and_of_true fun e he => decide_eq_true (hcov' e he)
  have hsum1 : (((months.filter fun x => strLeB x m).map
      fun m' => (inboundCount ems w m' : Int))).sum = (inC w ems : Int) := by
    rw [sum_map_natCast fun m' => inboundCount ems w m', h1]
  have hsum2 : (((months.filter fun x => strLeB x m).map
      fun m' => (outboundCount ems w m' : Int))).sum = (outC w ems : Int) := by
    rw [sum_map_natCast fun m' => outboundCount ems w m', h2]
  unfold runningNet
  rw [sum_map_sub (fun m' => (inboundCount ems w m' : Int))
    (fun m' => (outboundCount ems w m' : Int)), hsum1, hsum2]

theorem stockCount_filterMap (wcols scols : List String) (tbl : List CaseRow) (w m : String) :
    (stockCount (tbl.filterMap (caseStatus wcols scols)) w m : Int) =
      (tbl.map fun r => statusContrib w m (caseStatus wcols scols r)).sum := by
  induction tbl with
  | nil => simp [stockCount]
  | cons r tbl ih =>
    rw [List.filterMap_cons, List.map_cons, List.sum_cons, ← ih]
    cases hs : caseStatus wcols scols r with
    | none => simp [statusContrib]
    | some st =>
      rw [stockCount, List.countP_cons]
      have hbeq : (st.loc == w && st.stype == "warehouse" && strLeB st.month m) = true ↔
          (st.loc = w ∧ st.stype = "warehouse" ∧ strLeB st.month m = true) := by
        simp [Bool.and_eq_true, and_assoc]
      by_cases hc : st.loc = w ∧ st.stype = "warehouse" ∧ strLeB st.month m = true
      · rw [if_pos (hbeq.mpr hc)]
        simp only [statusContrib, if_pos hc]
        push_cast [stockCount]
        ring
      · rw [if_neg fun h => hc (hbeq.mp h)]
        simp only [statusContrib, if_neg hc]
        push_cast [stockCount]
        ring

theorem statusContrib_eq_endContrib (wcols scols : List String) (r : CaseRow) (w m : String)
    (hle : ∀ e ∈ caseEvents wcols scols r, strLeB e.date.month m = true) :
    statusContrib w m (caseStatus wcols scols r) = endContrib w (caseEvents wcols scols r) := by
  unfold caseStatus endContrib
  cases hlast : (caseEvents wcols scols r).getLast? with
  | none => rfl
  | some e =>
    have hm : strLeB e.date.month m = true := hle e (List.mem_of_getLast?_eq_some hlast)
    obtain ⟨d, l0, k⟩ := e
    cases k with
    | warehouse_in =>
      by_cases hlw : l0 = w <;>
        simp [statusContrib, RawKind.kindHead, hlw, hm]
    | site_out =>
      have hns : ("site" : String) ≠ "warehouse" := by decide
      simp [statusContrib, RawKind.kindHead, hns]

/-! ## Claim theorems: C1 -/

/-- C1 (counterexample): the claim fails as stated.  One case arrives at
warehouse `W` in 2025-01 and is delivered to site `S` in 2025-02; the
aggregation month list is `[2025-01, 2025-02]`.  The code's
`stock(W, 2025-01)` counts cases whose TERMINAL state is at `W` — the
case's terminal state is `(S, site, 2025-02)`, so the stock is 0 — while
the running `inbound − outbound` sum up to 2025-01 is 1 − 0 = 1: the two
independently computed figures disagree on this input. -/
theorem C1_counterexample :
    stockCount (trackCaseEvents ["W"] ["S"]
      [CaseRow.mk "C" 1 fun l => if l = "W" then some ⟨"2025-01", 0⟩
        else if l = "S" then some ⟨"2025-02", 0⟩ else none]).1 "W" "2025-01" = 0 ∧
    runningNet (trackCaseEvents ["W"] ["S"]
      [CaseRow.mk "C" 1 fun l => if l = "W" then some ⟨"2025-01", 0⟩
        else if l = "S" then some ⟨"2025-02", 0⟩ else none]).2
      ["2025-01", "2025-02"] "W" "2025-01" = 1 ∧
    ("2025-01" : String) ∈ ["2025-01", "2025-02"] ∧
    (["2025-01", "2025-02"] : List String).Nodup := by
  decide

/-- C1 (amended): the snapshot stock and the running `inbound − outbound`
sum agree only under extra conditions the original claim lacks: the query
month `m` is at or after every event month of every case (so no case still
has movements after `m`), and no case's ordered raw sequence contains two
consecutive warehouse arrivals at non-degenerate (non-empty) location
names (a warehouse→warehouse move emits no outbound for the first
warehouse, permanently inflating its running net).  Under these
hypotheses, for every warehouse `w` and month `m` of the (duplicate-free,
covering) aggregation month list, `stock(w, m)` equals the running sum of
`inbound(w, m') − outbound(w, m')` over the list's months `m' ≤ m`. -/
theorem C1_stock_eq_running_net_amended (wcols scols : List String) (tbl : List CaseRow)
    (months : List String) (w m : String)
    (hnodup : months.Nodup)
    (hcov : ∀ r ∈ tbl, ∀ e ∈ caseEvents wcols scols r, e.date.month ∈ months)
    (hle : ∀ r ∈ tbl, ∀ e ∈ caseEvents wcols scols r, strLeB e.date.month m = true)
    (hWW : ∀ r ∈ tbl, noConsecWW (caseEvents wcols scols r))
    (hne : ∀ r ∈ tbl, ∀ e ∈ caseEvents wcols scols r,
      e.kind = RawKind.warehouse_in → e.loc ≠ "") :
    (stockCount (trackCaseEvents wcols scols tbl).1 w m : Int) =
      runningNet (trackCaseEvents wcols scols tbl).2 months w m := by
  have hemcov : ∀ em ∈ (trackCaseEvents wcols scols tbl).2, em.month ∈ months := by
    intro em hm
    obtain ⟨r, hr, hmem⟩ := List.mem_flatMap.mp hm
    rw [caseEmits_eq_spec] at hmem
    obtain ⟨e, he, hmonth⟩ := spec_months _ _ _ _ hmem
    rw [hmonth]
    exact hcov r hr e he
  have hemle : ∀ em ∈ (trackCaseEvents wcols scols tbl).2, strLeB em.month m = true := by
    intro em hm
    obtain ⟨r, hr, hmem⟩ := List.mem_flatMap.mp hm
    rw [caseEmits_eq_spec] at hmem
    obtain ⟨e, he, hmonth⟩ := spec_months _ _ _ _ hmem
    rw [hmonth]
    exact hle r hr e he
  rw [runningNet_eq_counts _ months w m hnodup hemcov hemle]
  have hrow : ∀ r ∈ tbl, ((inC w (caseEmits wcols scols r) : Int) -
      outC w (caseEmits wcols scols r)) = statusContrib w m (caseStatus wcols scols r) := by
    intro r hr
    rw [caseEmits_eq_spec]
    have hnet := spec_net r.case_no w (caseEvents wcols scols r) none (hWW r hr) (hne r hr)
    rw [headDebt_none, sub_zero] at hnet
    rw [hnet, statusContrib_eq_endContrib wcols scols r w m (hle r hr)]
  show (stockCount (tbl.filterMap (caseStatus wcols scols)) w m : Int) =
    (inC w (tbl.flatMap (caseEmits wcols scols)) : Int) -
      outC w (tbl.flatMap (caseEmits wcols scols))
  rw [stockCount_filterMap]
  have hin : (inC w (tbl.flatMap (caseEmits wcols scols)) : Int) =
      (tbl.map fun r => (inC w (caseEmits wcols scols r) : Int)).sum := by
    rw [show inC w (tbl.flatMap (caseEmits wcols scols)) =
      (tbl.map fun r => inC w (caseEmits wcols scols r)).sum from
        countP_flatMap (caseEmits wcols scols) _]
    rw [sum_map_natCast fun r => inC w (caseEmits wcols scols r)]
  have hout : (outC w (tbl.flatMap (caseEmits wcols scols)) : Int) =
      (tbl.map fun r => (outC w (caseEmits wcols scols r) : Int)).sum := by
    rw [show outC w (tbl.flatMap (caseEmits wcols scols)) =
      (tbl.map fun r => outC w (caseEmits wcols scols r)).sum from
        countP_flatMap (caseEmits wcols scols) _]
    rw [sum_map_natCast fun r => outC w (caseEmits wcols scols r)]
  rw [hin, hout, ← sum_map_sub (fun r => (inC w (caseEmits wcols scols r) : Int))
    (fun r => (outC w (caseEmits wcols scols r) : Int))]
  exact (List.map_congr_left fun r hr => (hrow r hr).symm) ▸ rfl

/-- C1 witness: the amended theorem applied to a concrete one-case
warehouse→site dataset at the final month 2025-02, where both figures
evaluate to 0. -/
theorem C1_witness :
    ((["2025-01", "2025-02"] : List String).Nodup ∧
      (∀ r ∈ [CaseRow.mk "C" 1 fun l => if l = "W" then some ⟨"2025-01", 0⟩
          else if l = "S" then some ⟨"2025-02", 0⟩ else none],
        ∀ e ∈ caseEvents ["W"] ["S"] r, e.date.month ∈ ["2025-01", "2025-02"]) ∧
      (∀ r ∈ [CaseRow.mk "C" 1 fun l => if l = "W" then some ⟨"2025-01", 0⟩
          else if l = "S" then some ⟨"2025-02", 0⟩ else none],
        ∀ e ∈ caseEvents ["W"] ["S"] r, strLeB e.date.month "2025-02" = true) ∧
      (∀ r ∈ [CaseRow.mk "C" 1 fun l => if l = "W" then some ⟨"2025-01", 0⟩
          else if l = "S" then some ⟨"2025-02", 0⟩ else none],
        noConsecWW (caseEvents ["W"] ["S"] r)) ∧
      (∀ r ∈ [CaseRow.mk "C" 1 fun l => if l = "W" then some ⟨"2025-01", 0⟩
          else if l = "S" then some ⟨"2025-02", 0⟩ else none],
        ∀ e ∈ caseEvents ["W"] ["S"] r, e.kind = RawKind.warehouse_in → e.loc ≠ "")) ∧
    (stockCount (trackCaseEvents ["W"] ["S"]
        [CaseRow.mk "C" 1 fun l => if l = "W" then some ⟨"2025-01", 0⟩
          else if l = "S" then some ⟨"2025-02", 0⟩ else none]).1 "W" "2025-02" : Int) =
      runningNet (trackCaseEvents ["W"] ["S"]
        [CaseRow.mk "C" 1 fun l => if l = "W" then some ⟨"2025-01", 0⟩
          else if l = "S" then some ⟨"2025-02", 0⟩ else none]).2
        ["2025-01", "2025-02"] "W" "2025-02" :=
  ⟨⟨by decide, by decide, by decide, by decide, by decide⟩,
    C1_stock_eq_running_net_amended ["W"] ["S"]
      [CaseRow.mk "C" 1 fun l => if l = "W" then some ⟨"2025-01", 0⟩
        else if l = "S" then some ⟨"2025-02", 0⟩ else none]
      ["2025-01", "2025-02"] "W" "2025-02"
      (by decide) (by decide) (by decide) (by decide) (by decide)⟩

/-! ## Claim theorems: C2, C3, C7, C10 -/

/-- C2 (counterexample): the claim fails as stated.  With a warehouse
column named by the empty string, the case's raw sequence is a warehouse
arrival (at `""`, month 2025-01) immediately followed by a site delivery,
yet the tracker emits NO outbound event: the guard of line 94,
`if prev_type == 'warehouse' and prev_loc:`, tests Python truthiness of
the previous location name, and `''` is falsy.  The full emission is just
the inbound and the site arrival. -/
theorem C2_counterexample :
    trackEvents "C" [RawEvent.mk ⟨"2025-01", 0⟩ "" RawKind.warehouse_in,
        RawEvent.mk ⟨"2025-02", 0⟩ "S" RawKind.site_out] none none =
      [Emit.mk "C" "입고" "" "2025-01", Emit.mk "C" "site_in" "S" "2025-02"] := by
  decide

/-- C2 (amended): for every case and raw movement sequence, processing a
site-delivery event emits a warehouse-outbound event if and only if the
immediately preceding event was a warehouse arrival at a location with a
non-empty name; the outbound is tagged to that previous warehouse location
and to the month of the site-delivery event itself.  Stated as: the
tracking loop equals its pairwise restatement `emitsSpecAux`, which emits,
for a `site_out` event preceded by `p`, the outbound
`(prev_location, current month)` exactly under
`p.kind = warehouse_in ∧ p.loc ≠ ""`. -/
theorem C2_outbound_iff_amended (c : String) (es : List RawEvent) :
    trackEvents c es none none = emitsSpecAux c none es :=
  track_eq_spec c es none

/-- C3: for every case row and every location, the tracker emits at most
as many outbound-warehouse events as inbound-warehouse events at that
location: each synthesized departure consumes the warehouse recorded by a
preceding arrival (`_track_case_events` lines 87-97). -/
theorem C3_outbound_le_inbound (wcols scols : List String) (r : CaseRow) (w : String) :
    outC w (caseEmits wcols scols r) ≤ inC w (caseEmits wcols scols r) := by
  have h := spec_out_le_in r.case_no w (caseEvents wcols scols r) none
  rw [← caseEmits_eq_spec] at h
  have hz : debtI w (none : Option RawEvent) = 0 := rfl
  rw [hz, add_zero] at h
  exact_mod_cast h

/-- C7: the Event Extractor is deterministic and orders equal timestamps
by original column encounter order.  In this pure model a second run is
definitionally equal (first conjunct); the extracted sequence is sorted by
timestamp (second conjunct); and for every timestamp the subsequence of
events carrying it equals, in order, the corresponding subsequence of the
collection list — warehouse columns in configured order before site
columns (third conjunct, stability of the sort of line 85). -/
theorem C7_deterministic_stable_order (wcols scols : List String) (r : CaseRow) :
    caseEvents wcols scols r = caseEvents wcols scols r ∧
    List.Pairwise (fun a b => dateLeB a.date b.date = true) (caseEvents wcols scols r) ∧
    ∀ d : Date, (caseEvents wcols scols r).filter (fun e => decide (e.date = d)) =
      (collectEvents wcols scols r).filter (fun e => decide (e.date = d)) := by
  refine ⟨rfl, ?_, ?_⟩
  · exact @sortBy_pairwise RawEvent (fun a b => dateLeB a.date b.date)
      (fun _ _ _ hab hbc => dateLeB_trans hab hbc)
      (fun a b => dateLeB_total a.date b.date) (collectEvents wcols scols r)
  · intro d0
    exact sortBy_filter_stable
      (fun x y hx hy => by
        rw [of_decide_eq_true hx, of_decide_eq_true hy]
        exact dateLeB_refl d0) _

/-- C10: both the warehouse stock column and the site cumulative-inbound
column are censuses of terminal states with month at most `m`
(`_aggregate_warehouse_data` line 112, `_aggregate_site_data` line 126),
so neither ever decreases as the reporting month advances. -/
theorem C10_stock_cumulative_monotone (wcols scols : List String) (tbl : List CaseRow)
    (w s m1 m2 : String) (h : strLeB m1 m2 = true) :
    stockCount (trackCaseEvents wcols scols tbl).1 w m1 ≤
        stockCount (trackCaseEvents wcols scols tbl).1 w m2 ∧
      cumSiteCount (trackCaseEvents wcols scols tbl).1 s m1 ≤
        cumSiteCount (trackCaseEvents wcols scols tbl).1 s m2 := by
  constructor
  · apply countP_mono_of_imp
    intro st _ hst
    simp only [Bool.and_eq_true] at hst ⊢
    exact ⟨hst.1, strLeB_trans hst.2 h⟩
  · apply countP_mono_of_imp
    intro st _ hst
    simp only [Bool.and_eq_true] at hst ⊢
    exact ⟨hst.1, strLeB_trans hst.2 h⟩

/-! ## Lemmas for claim C4 -/

theorem getLast?_cons_of_ne_nil {a : α} {l : List α} (h : l ≠ []) :
    (a :: l).getLast? = l.getLast? := by
  cases l with
  | nil => exact absurd rfl h
  | cons b t => exact List.getLast?_cons_cons

theorem filter_swap (p q : α → Bool) (l : List α) :
    (l.filter p).filter q = (l.filter q).filter p := by
  rw [List.filter_filter, List.filter_filter]
  apply List.filter_congr
  intro a _
  rw [Bool.and_comm]

/-- `drop_duplicates(keep='last')` restricted to one case is that case's
last melted row. -/
theorem dedupLast_filter (c : String) : ∀ (l : List MeltRow),
    (dedupLastByCase l).filter (fun r => r.case_no == c) =
      ((l.filter fun r => r.case_no == c).getLast?).toList
  | [] => rfl
  | r :: rest => by
    by_cases hany : rest.any (fun x => x.case_no == r.case_no) = true
    · rw [show dedupLastByCase (r :: rest) = dedupLastByCase rest by
        simp only [dedupLastByCase, if_pos hany]]
      by_cases hc : (r.case_no == c) = true
      · have hcc : r.case_no = c := by simpa using hc
        have hne : rest.filter (fun x => x.case_no == c) ≠ [] := by
          obtain ⟨x, hx, hxc⟩ := List.any_eq_true.mp hany
          have hxc' : (x.case_no == c) = true := by
            have : x.case_no = r.case_no := by simpa using hxc
            simp [this, hcc]
          exact List.ne_nil_of_mem (List.mem_filter.mpr ⟨hx, hxc'⟩)
        rw [List.filter_cons, if_pos hc, getLast?_cons_of_ne_nil hne]
        exact dedupLast_filter c rest
      · rw [List.filter_cons, if_neg (by simp [hc] : ¬(r.case_no == c) = true)]
        exact dedupLast_filter c rest
    · rw [show dedupLastByCase (r :: rest) = r :: dedupLastByCase rest by
        simp only [dedupLastByCase, if_neg hany]]
      by_cases hc : (r.case_no == c) = true
      · have hcc : r.case_no = c := by simpa using hc
        have hfe : rest.filter (fun x => x.case_no == c) = [] := by
          rw [List.filter_eq_nil_iff]
          intro x hx hpx
          apply hany
          refine List.any_eq_true.mpr ⟨x, hx, ?_⟩
          have : x.case_no = c := by simpa using hpx
          simp [this, hcc]
        rw [List.filter_cons, if_pos hc, List.filter_cons, if_pos hc,
          dedupLast_filter c rest, hfe]
        rfl
      · rw [List.filter_cons, if_neg (by simp [hc] : ¬(r.case_no == c) = true),
          List.filter_cons, if_neg (by simp [hc] : ¬(r.case_no == c) = true)]
        exact dedupLast_filter c rest

/-! ## Claim theorems: C4 -/

/-- C4 (counterexample): the claim fails as stated.  Case `C` appears in
supplier A's table with its last movement at warehouse `W1` (2025-01,
quantity 5) and in supplier B's table with its last movement at site `S`
(2025-02): its most recent recorded movement across all movement tables
is at a site, so by the claim it should contribute nothing; but
`_calculate_stock_from_movements` deduplicates per supplier (the
`drop_duplicates` of line 693 runs inside the per-supplier loop), so
supplier A still contributes 5. -/
theorem C4_counterexample :
    calculateStockFromMovements
      [SupplierData.mk [CaseRow.mk "C" 5 fun l =>
          if l = "W1" then some ⟨"2025-01", 0⟩ else none] ["W1"] ["W1", "S"],
        SupplierData.mk [CaseRow.mk "C" 7 fun l =>
          if l = "S" then some ⟨"2025-02", 0⟩ else none] ["W1"] ["W1", "S"]]
      ["S"] "C" = 5 ∧
    specGlobalCalculatedStock
      [SupplierData.mk [CaseRow.mk "C" 5 fun l =>
          if l = "W1" then some ⟨"2025-01", 0⟩ else none] ["W1"] ["W1", "S"],
        SupplierData.mk [CaseRow.mk "C" 7 fun l =>
          if l = "S" then some ⟨"2025-02", 0⟩ else none] ["W1"] ["W1", "S"]]
      ["S"] "C" = 0 ∧
    (5 : Int) ≠ 0 := by
  decide

/-- C4 (amended): calculated stock is the melt → drop-null → sort →
keep-last-per-case → warehouse-filter → sum pipeline applied WITHIN each
supplier's movement table separately, summed across suppliers: for each
case id, each supplier contributes its quantity exactly when the case's
most recent recorded movement within that supplier's table is at one of
that supplier's warehouses; a case whose most recent movement within a
given supplier's table is at a site contributes nothing from that
supplier. -/
theorem C4_per_supplier_last_row_amended (sups : List SupplierData) (scols : List String)
    (c : String) :
    calculateStockFromMovements sups scols c =
      (sups.map fun sup =>
        match lastMovementOf sup scols c with
        | some r => if sup.wcols.contains r.location then r.quantity else 0
        | none => 0).sum := by
  induction sups with
  | nil => rfl
  | cons sup sups ih =>
    unfold calculateStockFromMovements at ih ⊢
    rw [List.flatMap_cons, List.filter_append, List.map_append, List.sum_append, ih,
      List.map_cons, List.sum_cons]
    congr 1
    unfold supplierInWarehouse supplierKept lastMovementOf
    rw [filter_swap, dedupLast_filter c (sortMelt (melt (valueVars sup scols) sup.rows))]
    cases hlast : ((sortMelt (melt (valueVars sup scols) sup.rows)).filter
        fun r => r.case_no == c).getLast? with
    | none => rfl
    | some r =>
      show ((([r] : List MeltRow).filter fun x => sup.wcols.contains x.location).map
          fun x => x.quantity).sum =
        if sup.wcols.contains r.location = true then r.quantity else 0
      by_cases hw : sup.wcols.contains r.location = true
      · rw [if_pos hw, List.filter_cons, if_pos hw]
        simp
      · rw [if_neg hw, List.filter_cons, if_neg hw]
        simp

/-! ## Lemmas for claim C5 -/

theorem lookupQty_eq_some {l : List (String × Int)} {c : String} {v : Int}
    (hnd : (l.map fun p => p.1).Nodup) (hm : (c, v) ∈ l) : lookupQty l c = some v := by
  induction l with
  | nil => cases hm
  | cons a rest ih =>
    rcases List.mem_cons.mp hm with rfl | hm'
    · unfold lookupQty
      rw [List.find?_cons_of_pos _ (by simp)]
      rfl
    · have hnotin : a.1 ∉ rest.map (fun p => p.1) := (List.nodup_cons.mp hnd).1
      have hne : (a.1 == c) = false := by
        rw [beq_eq_false_iff_ne]
        intro he
        exact hnotin (he ▸ List.mem_map.mpr ⟨(c, v), hm', rfl⟩)
      unfold lookupQty
      rw [List.find?_cons, hne]
      exact ih (List.nodup_cons.mp hnd).2 hm'

theorem lookupQty_eq_none {l : List (String × Int)} {c : String}
    (h : ∀ p ∈ l, p.1 ≠ c) : lookupQty l c = none := by
  unfold lookupQty
  rw [List.find?_eq_none.mpr fun p hp => by simp [h p hp]]
  rfl

/-! ## Claim theorems: C5 -/

/-- C5 (counterexample): the claim fails as stated.  With an empty actual
on-hand table and one calculated-stock row `("C", 5)`, the claim demands a
reconciliation row for `C` with discrepancy `0 − 5 = −5 ≠ 0`; but
`run_stock_verification` returns early with an empty result whenever the
on-hand frame is empty (line 176), so no row is produced. -/
theorem C5_counterexample :
    runStockVerification [] [("C", 5)] = [] ∧ ((0 : Int) - 5 ≠ 0) := by
  decide

/-- C5 (amended): provided the actual on-hand table and the calculated
stock table are both non-empty (otherwise the code returns an empty result
without reconciling) and each table keys its case ids uniquely, the
reconciliation output contains a row for a case id iff the case appears on
either side and `actual − calculated ≠ 0`, where a missing side counts as
0; and every output row carries exactly the looked-up calculated value,
the looked-up actual value, and their difference as the discrepancy — so
a case present only in actual-on-hand yields discrepancy `actual`, and a
case present only in movement data yields `−calculated`. -/
theorem C5_reconciliation_amended (onhand calcTbl : List (String × Int))
    (h1 : onhand ≠ []) (h2 : calcTbl ≠ [])
    (hnc : (calcTbl.map fun p => p.1).Nodup) (hna : (onhand.map fun p => p.1).Nodup) :
    (∀ c : String,
      (∃ r ∈ runStockVerification onhand calcTbl, r.case_no = c) ↔
        ((∃ p ∈ calcTbl, p.1 = c) ∨ ∃ q ∈ onhand, q.1 = c) ∧
          (lookupQty onhand c).getD 0 - (lookupQty calcTbl c).getD 0 ≠ 0) ∧
    ∀ r ∈ runStockVerification onhand calcTbl,
      r.calculated = (lookupQty calcTbl r.case_no).getD 0 ∧
      r.actual = (lookupQty onhand r.case_no).getD 0 ∧
      r.disc = r.actual - r.calculated := by
  have hrw : runStockVerification onhand calcTbl =
      ((outerMergeFill calcTbl onhand).map fun t =>
        VRow.mk t.1 t.2.1 t.2.2 (t.2.2 - t.2.1)).filter fun r => !(r.disc == 0) := by
    unfold runStockVerification
    rw [if_neg h1, if_neg h2]
  have hmm : ∀ r : VRow,
      r ∈ ((outerMergeFill calcTbl onhand).map fun t =>
        VRow.mk t.1 t.2.1 t.2.2 (t.2.2 - t.2.1)) ↔
      (∃ p ∈ calcTbl, r = VRow.mk p.1 p.2 ((lookupQty onhand p.1).getD 0)
          ((lookupQty onhand p.1).getD 0 - p.2)) ∨
      (∃ q ∈ onhand, (calcTbl.any fun p => p.1 == q.1) = false ∧
          r = VRow.mk q.1 0 q.2 (q.2 - 0)) := by
    intro r
    unfold outerMergeFill
    rw [List.map_append, List.mem_append]
    constructor
    · rintro (h | h)
      · obtain ⟨t, ht, rfl⟩ := List.mem_map.mp h
        obtain ⟨p, hp, rfl⟩ := List.mem_map.mp ht
        exact Or.inl ⟨p, hp, rfl⟩
      · obtain ⟨t, ht, rfl⟩ := List.mem_map.mp h
        obtain ⟨q, hq, rfl⟩ := List.mem_map.mp ht
        have hq2 := List.mem_filter.mp hq
        refine Or.inr ⟨q, hq2.1, ?_, rfl⟩
        simpa using hq2.2
    · rintro (⟨p, hp, rfl⟩ | ⟨q, hq, hqa, rfl⟩)
      · exact Or.inl (List.mem_map.mpr
          ⟨(p.1, p.2, (lookupQty onhand p.1).getD 0), List.mem_map.mpr ⟨p, hp, rfl⟩, rfl⟩)
      · exact Or.inr (List.mem_map.mpr
          ⟨(q.1, 0, q.2),
            List.mem_map.mpr ⟨q, List.mem_filter.mpr ⟨hq, by simp [hqa]⟩, rfl⟩, rfl⟩)
  have hvals : ∀ r ∈ ((outerMergeFill calcTbl onhand).map fun t =>
      VRow.mk t.1 t.2.1 t.2.2 (t.2.2 - t.2.1)),
      r.calculated = (lookupQty calcTbl r.case_no).getD 0 ∧
      r.actual = (lookupQty onhand r.case_no).getD 0 ∧
      r.disc = r.actual - r.calculated := by
    intro r hr
    rcases (hmm r).mp hr with ⟨p, hp, rfl⟩ | ⟨q, hq, hqa, rfl⟩
    · obtain ⟨c0, v0⟩ := p
      refine ⟨?_, rfl, rfl⟩
      rw [show (VRow.mk (c0, v0).1 (c0, v0).2 ((lookupQty onhand (c0, v0).1).getD 0)
          ((lookupQty onhand (c0, v0).1).getD 0 - (c0, v0).2)).case_no = c0 from rfl,
        lookupQty_eq_some hnc hp]
      rfl
    · obtain ⟨c0, v0⟩ := q
      have hnone : lookupQty calcTbl c0 = none := by
        apply lookupQty_eq_none
        intro p hp
        have := List.any_eq_false.mp hqa p hp
        simpa using this
      refine ⟨?_, ?_, rfl⟩
      · rw [show (VRow.mk (c0, v0).1 0 (c0, v0).2 ((c0, v0).2 - 0)).case_no = c0 from rfl,
          hnone]
        rfl
      · rw [show (VRow.mk (c0, v0).1 0 (c0, v0).2 ((c0, v0).2 - 0)).case_no = c0 from rfl,
          lookupQty_eq_some hna hq]
        rfl
  constructor
  · intro c
    constructor
    · rintro ⟨r, hr, rfl⟩
      rw [hrw] at hr
      have hfm := List.mem_filter.mp hr
      have hdisc : r.disc ≠ 0 := by simpa using hfm.2
      have hv := hvals r hfm.1
      refine ⟨?_, ?_⟩
      · rcases (hmm r).mp hfm.1 with ⟨p, hp, rfl⟩ | ⟨q, hq, _, rfl⟩
        · exact Or.inl ⟨p, hp, rfl⟩
        · exact Or.inr ⟨q, hq, rfl⟩
      · rw [← hv.1, ← hv.2.1]
        rw [← hv.2.2]
        exact hdisc
    · rintro ⟨hkey, hdiff⟩
      by_cases hc : ∃ p ∈ calcTbl, p.1 = c
      · obtain ⟨p, hp, hpc⟩ := hc
        refine ⟨VRow.mk p.1 p.2 ((lookupQty onhand p.1).getD 0)
          ((lookupQty onhand p.1).getD 0 - p.2), ?_, hpc⟩
        rw [hrw]
        apply List.mem_filter.mpr
        refine ⟨(hmm _).mpr (Or.inl ⟨p, hp, rfl⟩), ?_⟩
        have hl : lookupQty calcTbl c = some p.2 := by
          rw [← hpc]
          exact lookupQty_eq_some hnc (by rw [show (p.1, p.2) = p from rfl]; exact hp)
        have : (lookupQty onhand p.1).getD 0 - p.2 ≠ 0 := by
          rw [hpc]
          simpa [hl] using hdiff
        simpa using this
      · have hq : ∃ q ∈ onhand, q.1 = c := by
          rcases hkey with h | h
          · exact absurd h hc
          · exact h
        obtain ⟨q, hq', hqc⟩ := hq
        have hqa : (calcTbl.any fun p => p.1 == q.1) = false := by
          apply List.any_eq_false.mpr
          intro p hp
          simp only [beq_iff_eq]
          intro he
          exact hc ⟨p, hp, he.trans hqc⟩
        refine ⟨VRow.mk q.1 0 q.2 (q.2 - 0), ?_, hqc⟩
        rw [hrw]
        apply List.mem_filter.mpr
        refine ⟨(hmm _).mpr (Or.inr ⟨q, hq', hqa, rfl⟩), ?_⟩
        have hnone : lookupQty calcTbl c = none := by
          apply lookupQty_eq_none
          intro p hp he
          exact hc ⟨p, hp, he⟩
        have hsomeq : lookupQty onhand c = some q.2 := by
          rw [← hqc]
          exact lookupQty_eq_some hna (by rw [show (q.1, q.2) = q from rfl]; exact hq')
        have : q.2 - 0 ≠ 0 := by
          simpa [hnone, hsomeq] using hdiff
        simpa using this
  · intro r hr
    rw [hrw] at hr
    exact hvals r (List.mem_filter.mp hr).1

/-- C5 witness: the amended theorem applied to a one-row on-hand table
`[("A", 5)]` and a one-row calculated table `[("B", 3)]`; the output has a
row for `A` (discrepancy 5) and a row for `B` (discrepancy −3). -/
theorem C5_witness :
    (([("A", 5)] : List (String × Int)) ≠ [] ∧
      ([("B", 3)] : List (String × Int)) ≠ [] ∧
      (([("B", 3)] : List (String × Int)).map fun p => p.1).Nodup ∧
      (([("A", 5)] : List (String × Int)).map fun p => p.1).Nodup) ∧
    ((∀ c : String,
      (∃ r ∈ runStockVerification [("A", 5)] [("B", 3)], r.case_no = c) ↔
        ((∃ p ∈ ([("B", 3)] : List (String × Int)), p.1 = c) ∨
            ∃ q ∈ ([("A", 5)] : List (String × Int)), q.1 = c) ∧
          (lookupQty [("A", 5)] c).getD 0 - (lookupQty [("B", 3)] c).getD 0 ≠ 0) ∧
    ∀ r ∈ runStockVerification [("A", 5)] [("B", 3)],
      r.calculated = (lookupQty [("B", 3)] r.case_no).getD 0 ∧
      r.actual = (lookupQty [("A", 5)] r.case_no).getD 0 ∧
      r.disc = r.actual - r.calculated) :=
  ⟨⟨by decide, by decide, by decide, by decide⟩,
    C5_reconciliation_amended [("A", 5)] [("B", 3)]
      (by decide) (by decide) (by decide) (by decide)⟩

/-! ## Lemmas for claim C6 -/

theorem containsSub_append_of_right {pat ys : List Char} (h : containsSub pat ys = true) :
    ∀ xs : List Char, containsSub pat (xs ++ ys) = true
  | [] => h
  | c :: xs => by
    show (pat.isPrefixOf (c :: (xs ++ ys)) || containsSub pat (xs ++ ys)) = true
    rw [containsSub_append_of_right h xs]
    simp

theorem isStockColName_stock (w : String) : isStockColName (w ++ "_재고") = true := by
  unfold isStockColName
  have h : containsSub "재고".toList ((w ++ "_재고").toList) = true := by
    show containsSub "재고".toList (w.toList ++ "_재고".toList) = true
    exact containsSub_append_of_right (by decide) w.toList
  rw [h]
  simp

theorem isStockColName_cum (s : String) : isStockColName (s ++ "_누적입고") = true := by
  unfold isStockColName
  have h : containsSub "누적입고".toList ((s ++ "_누적입고").toList) = true := by
    show containsSub "누적입고".toList (s.toList ++ "_누적입고".toList) = true
    exact containsSub_append_of_right (by decide) s.toList
  rw [h]
  simp

/-! ## Claim theorems: C6 -/

/-- C6 (counterexample): the claim fails as stated.  The classification of
`_add_total_row` line 139 is a SUBSTRING test (`'재고' in col`), so for a
warehouse named `재고A` the inbound column `재고A_입고` contains `재고`
and is treated as a stock column: with inbound counts 1 (2025-01) and 2
(2025-02), the TOTAL cell holds the last row's value 2, not the column
sum 3. -/
theorem C6_counterexample :
    ((aggregateWarehouseData []
        [Emit.mk "c1" "입고" "재고A" "2025-01", Emit.mk "c2" "입고" "재고A" "2025-02",
          Emit.mk "c3" "입고" "재고A" "2025-02"]
        ["2025-01", "2025-02"] ["재고A"]).getLast?.map fun tr => tr.val "재고A_입고") =
      some 2 ∧
    ((aggregateWarehouseData []
        [Emit.mk "c1" "입고" "재고A" "2025-01", Emit.mk "c2" "입고" "재고A" "2025-02",
          Emit.mk "c3" "입고" "재고A" "2025-02"]
        ["2025-01", "2025-02"] ["재고A"]).dropLast.map fun r => r.val "재고A_입고").sum = 3 ∧
    (2 : Nat) ≠ 3 := by
  decide

/-- C6 (amended): provided no warehouse name makes an inbound/outbound
column name contain the substrings `재고` or `누적입고` (the code
classifies columns by substring), the TOTAL row of a non-empty monthly
warehouse table carries, in each `{w}_입고` and `{w}_출고` column, the sum
of that column over the non-TOTAL rows, and in each `{w}_재고` column the
last non-TOTAL row's value; likewise for site tables with `{s}_입고` sums
and `{s}_누적입고` last values. -/
theorem C6_total_row_amended (sts : List CaseStatus) (ems : List Emit)
    (months ws ss : List String) (hne : months ≠ [])
    (hw : ∀ w ∈ ws, isStockColName (w ++ "_입고") = false ∧
      isStockColName (w ++ "_출고") = false)
    (hs : ∀ s ∈ ss, isStockColName (s ++ "_입고") = false) :
    (∀ w ∈ ws,
      ((aggregateWarehouseData sts ems months ws).getLast?.map
          fun tr => tr.val (w ++ "_입고")) =
        some (((aggregateWarehouseData sts ems months ws).dropLast.map
          fun r => r.val (w ++ "_입고")).sum) ∧
      ((aggregateWarehouseData sts ems months ws).getLast?.map
          fun tr => tr.val (w ++ "_출고")) =
        some (((aggregateWarehouseData sts ems months ws).dropLast.map
          fun r => r.val (w ++ "_출고")).sum) ∧
      ((aggregateWarehouseData sts ems months ws).getLast?.map
          fun tr => tr.val (w ++ "_재고")) =
        ((aggregateWarehouseData sts ems months ws).dropLast.getLast?.map
          fun r => r.val (w ++ "_재고"))) ∧
    (∀ s ∈ ss,
      ((aggregateSiteData sts ems months ss).getLast?.map
          fun tr => tr.val (s ++ "_입고")) =
        some (((aggregateSiteData sts ems months ss).dropLast.map
          fun r => r.val (s ++ "_입고")).sum) ∧
      ((aggregateSiteData sts ems months ss).getLast?.map
          fun tr => tr.val (s ++ "_누적입고")) =
        ((aggregateSiteData sts ems months ss).dropLast.getLast?.map
          fun r => r.val (s ++ "_누적입고"))) := by
  cases months with
  | nil => exact absurd rfl hne
  | cons m0 mrest =>
    have hexpW : aggregateWarehouseData sts ems (m0 :: mrest) ws =
        ((m0 :: mrest).map fun m => MRow.mk m (aggWarehouseVal sts ems ws m)) ++
          [MRow.mk "TOTAL" fun col =>
            if isStockColName col then
              (match ((m0 :: mrest).map fun m =>
                  MRow.mk m (aggWarehouseVal sts ems ws m)).getLast? with
               | some x => x.val col
               | none => 0)
            else (((m0 :: mrest).map fun m =>
              MRow.mk m (aggWarehouseVal sts ems ws m)).map fun x => x.val col).sum] := by
      rfl
    have hexpS : aggregateSiteData sts ems (m0 :: mrest) ss =
        ((m0 :: mrest).map fun m => MRow.mk m (aggSiteVal sts ems ss m)) ++
          [MRow.mk "TOTAL" fun col =>
            if isStockColName col then
              (match ((m0 :: mrest).map fun m =>
                  MRow.mk m (aggSiteVal sts ems ss m)).getLast? with
               | some x => x.val col
               | none => 0)
            else (((m0 :: mrest).map fun m =>
              MRow.mk m (aggSiteVal sts ems ss m)).map fun x => x.val col).sum] := by
      rfl
    constructor
    · intro w hwmem
      rw [hexpW, List.getLast?_concat, List.dropLast_concat]
      refine ⟨?_, ?_, ?_⟩
      · simp only [Option.map_some', Option.some_inj]
        rw [if_neg (by rw [(hw w hwmem).1]; exact Bool.false_ne_true)]
      · simp only [Option.map_some', Option.some_inj]
        rw [if_neg (by rw [(hw w hwmem).2]; exact Bool.false_ne_true)]
      · simp only [Option.map_some']
        rw [if_pos (isStockColName_stock w)]
        cases hx : ((m0 :: mrest).map fun m =>
            MRow.mk m (aggWarehouseVal sts ems ws m)).getLast? with
        | none => exact absurd (List.getLast?_eq_none_iff.mp hx) (by simp)
        | some x => rfl
    · intro s hsmem
      rw [hexpS, List.getLast?_concat, List.dropLast_concat]
      refine ⟨?_, ?_⟩
      · simp only [Option.map_some', Option.some_inj]
        rw [if_neg (by rw [hs s hsmem]; exact Bool.false_ne_true)]
      · simp only [Option.map_some']
        rw [if_pos (isStockColName_cum s)]
        cases hx : ((m0 :: mrest).map fun m =>
            MRow.mk m (aggSiteVal sts ems ss m)).getLast? with
        | none => exact absurd (List.getLast?_eq_none_iff.mp hx) (by simp)
        | some x => rfl

/-- C6 witness: the amended theorem applied to warehouse `W`, site `S` and
the single month 2025-01 on empty event data. -/
theorem C6_witness :
    ((["2025-01"] : List String) ≠ [] ∧
      (∀ w ∈ (["W"] : List String), isStockColName (w ++ "_입고") = false ∧
        isStockColName (w ++ "_출고") = false) ∧
      (∀ s ∈ (["S"] : List String), isStockColName (s ++ "_입고") = false)) ∧
    ((∀ w ∈ (["W"] : List String),
      ((aggregateWarehouseData [] [] ["2025-01"] ["W"]).getLast?.map
          fun tr => tr.val (w ++ "_입고")) =
        some (((aggregateWarehouseData [] [] ["2025-01"] ["W"]).dropLast.map
          fun r => r.val (w ++ "_입고")).sum) ∧
      ((aggregateWarehouseData [] [] ["2025-01"] ["W"]).getLast?.map
          fun tr => tr.val (w ++ "_출고")) =
        some (((aggregateWarehouseData [] [] ["2025-01"] ["W"]).dropLast.map
          fun r => r.val (w ++ "_출고")).sum) ∧
      ((aggregateWarehouseData [] [] ["2025-01"] ["W"]).getLast?.map
          fun tr => tr.val (w ++ "_재고")) =
        ((aggregateWarehouseData [] [] ["2025-01"] ["W"]).dropLast.getLast?.map
          fun r => r.val (w ++ "_재고"))) ∧
    (∀ s ∈ (["S"] : List String),
      ((aggregateSiteData [] [] ["2025-01"] ["S"]).getLast?.map
          fun tr => tr.val (s ++ "_입고")) =
        some (((aggregateSiteData [] [] ["2025-01"] ["S"]).dropLast.map
          fun r => r.val (s ++ "_입고")).sum) ∧
      ((aggregateSiteData [] [] ["2025-01"] ["S"]).getLast?.map
          fun tr => tr.val (s ++ "_누적입고")) =
        ((aggregateSiteData [] [] ["2025-01"] ["S"]).dropLast.getLast?.map
          fun r => r.val (s ++ "_누적입고")))) :=
  ⟨⟨by decide, by decide, by decide⟩,
    C6_total_row_amended [] [] ["2025-01"] ["W"] ["S"]
      (by decide) (by decide) (by decide)⟩

/-! ## Claim theorems: C8 -/

/-- C8 (counterexample): the claim fails as stated.  In a table whose
case column resolves (`Case No.` matches the pattern `case no`), a row
whose case cell is missing is NOT dropped: `astype(str)` (normalize line
72) turns the missing value into the string `'nan'` and the row is kept,
so the output still has 2 identifiers where the claim demands 1. -/
theorem C8_counterexample :
    normalizeCaseIds ["case no"] ["Case No."]
      [fun _ => some "A", fun _ => none] = some ["A", "nan"] ∧
    (["A", "nan"] : List String).length ≠ 1 := by
  decide

/-- C8 (amended): normalization never drops individual rows.  Whenever it
succeeds (i.e. some column matched a case-identifier pattern — otherwise
the WHOLE table is rejected, `normalize` lines 67-69), the identifier list
has exactly one entry per input row, a missing cell surfacing as the
string `'nan'` rather than a dropped row. -/
theorem C8_rows_kept_amended (patterns cols : List String)
    (rows : List (String → Option String)) (ids : List String)
    (h : normalizeCaseIds patterns cols rows = some ids) :
    ids.length = rows.length ∧ (findColumn patterns cols).isSome = true := by
  unfold normalizeCaseIds at h
  cases hf : findColumn patterns cols with
  | none =>
    rw [hf] at h
    cases h
  | some c =>
    rw [hf] at h
    obtain rfl : rows.map (fun r => pyStr (r c)) = ids := Option.some_inj.mp h
    exact ⟨List.length_map _ _, rfl⟩

/-- C8 witness: the amended theorem applied to the two-row table of the
counterexample. -/
theorem C8_witness :
    normalizeCaseIds ["case no"] ["Case No."]
        [fun _ => some "A", fun _ => none] = some ["A", "nan"] ∧
    ((["A", "nan"] : List String).length =
        ([fun _ => some "A", fun _ => none] : List (String → Option String)).length ∧
      (findColumn ["case no"] ["Case No."]).isSome = true) :=
  ⟨by decide,
    C8_rows_kept_amended ["case no"] ["Case No."]
      [fun _ => some "A", fun _ => none] ["A", "nan"] (by decide)⟩

/-! ## Claim theorems: C9 -/

/-- C9 (spec-modelled): the consolidation builder is not among the
analyzed sources, so `consolidateWH` models spec §4.5 directly; by its
final column filter, no column of an excluded warehouse (its inbound,
outbound or stock column) ever appears in the consolidated table's column
set, even when present in every per-supplier column list. -/
theorem C9_excluded_warehouse_absent (tables : List (List MRow))
    (supplierCols : List (List String)) (excluded months : List String)
    (w : String) (hw : w ∈ excluded) :
    ∀ col ∈ (consolidateWH tables supplierCols excluded months).cols,
      col ≠ w ++ "_입고" ∧ col ≠ w ++ "_출고" ∧ col ≠ w ++ "_재고" := by
  intro col hcol
  simp only [consolidateWH] at hcol
  have hk := (List.mem_filter.mp hcol).2
  have hany : (excluded.any fun v =>
      col == v ++ "_입고" || col == v ++ "_출고" || col == v ++ "_재고") = false := by
    simpa using hk
  have hv := List.any_eq_false.mp hany w hw
  refine ⟨fun he => ?_, fun he => ?_, fun he => ?_⟩ <;>
    exact hv (by simp [he])

/-- C9 witness: the theorem applied to the excluded warehouse `MOSB`
whose columns appear in a supplier's column list. -/
theorem C9_witness :
    ("MOSB" : String) ∈ (["MOSB"] : List String) ∧
    ∀ col ∈ (consolidateWH [] [["MOSB_입고", "DSV_입고"]] ["MOSB"] ["2025-01"]).cols,
      col ≠ "MOSB" ++ "_입고" ∧ col ≠ "MOSB" ++ "_출고" ∧ col ≠ "MOSB" ++ "_재고" :=
  ⟨by decide,
    C9_excluded_warehouse_absent [] [["MOSB_입고", "DSV_입고"]] ["MOSB"] ["2025-01"]
      "MOSB" (by decide)⟩

/-- C10 witness: the monotonicity theorem applied to a concrete one-case
dataset and the months 2025-01 ≤ 2025-02. -/
theorem C10_witness :
    strLeB "2025-01" "2025-02" = true ∧
    (stockCount (trackCaseEvents ["W"] ["S"]
        [CaseRow.mk "C1" 1 fun l => if l = "W" then some ⟨"2025-01", 0⟩
          else if l = "S" then some ⟨"2025-02", 1⟩ else none]).1 "W" "2025-01" ≤
      stockCount (trackCaseEvents ["W"] ["S"]
        [CaseRow.mk "C1" 1 fun l => if l = "W" then some ⟨"2025-01", 0⟩
          else if l = "S" then some ⟨"2025-02", 1⟩ else none]).1 "W" "2025-02" ∧
    cumSiteCount (trackCaseEvents ["W"] ["S"]
        [CaseRow.mk "C1" 1 fun l => if l = "W" then some ⟨"2025-01", 0⟩
          else if l = "S" then some ⟨"2025-02", 1⟩ else none]).1 "S" "2025-01" ≤
      cumSiteCount (trackCaseEvents ["W"] ["S"]
        [CaseRow.mk "C1" 1 fun l => if l = "W" then some ⟨"2025-01", 0⟩
          else if l = "S" then some ⟨"2025-02", 1⟩ else none]).1 "S" "2025-02") :=
  ⟨by decide,
    C10_stock_cumulative_monotone ["W"] ["S"]
      [CaseRow.mk "C1" 1 fun l => if l = "W" then some ⟨"2025-01", 0⟩
        else if l = "S" then some ⟨"2025-02", 1⟩ else none]
      "W" "S" "2025-01" "2025-02" (by decide)⟩

end HVDC
